import Mathlib

/-!
Settings resolution of CuraEngine: `src/settings/Settings.cpp` and
`src/settings/types/AngleRadians.h`.

A shallow embedding of the typed settings container (`Settings`), the legacy
flat store (`SettingsBase`, `SettingsMessenger`), the text conversions of
`Settings::get<T>` and the clock arithmetic of `AngleRadians`.

Conventions of the embedding:
* a `std::unordered_map<std::string, V>` is an association list with
  first-match lookup; `insert`/`emplace` keep an existing entry, `operator[]=`
  replaces it;
* `std::exit(n)` after `logError(msg)` is the result `Except.error (.exit msg n)`, an
  exception that leaves a function is `Except.error (.thrown e)`;
* non-owning pointers to other scopes are the pointed-to scope itself, which
  makes every parent/override graph finite and acyclic;
* a `double` is read as an exact rational number, `std::fmod` as the truncated
  remainder; `long`, `unsigned long` and `size_t` have 64 bits, `int` and
  `unsigned int` 32 bits;
* `s.c_str()` is read as the text `s`: the scanners below stop at the first
  character that is neither white space, sign nor digit, as they would at a NUL,
  and the texts given to `snprintf` and `std::regex_match` hold no NUL;
* a `std::regex` is the sequence of its items, matched by backtracking with
  greedy repetitions, `\s` being `isspace`.
-/

namespace cura

/-! ## Results and maps -/

/-- The exceptions of the standard library raised by `std::stoul` and `std::stod`. -/
inductive StdException where
  | invalid_argument
  | out_of_range
deriving DecidableEq, Repr

/-- The ways a call ends without returning: `logError(logged)` followed by
`std::exit(status)`, or an exception that leaves the function. -/
inductive Abort where
  | exit (logged : String) (status : Int)
  | thrown (exception : StdException)
deriving DecidableEq, Repr

deriving instance DecidableEq for Except

/-- The lookup `map.find(key)`: the entry stored under `key`, when there is one. -/
def mapFind {β : Type} : List (String × β) → String → Option β
  | [], _ => none
  | (k, v) :: rest, key => if k = key then some v else mapFind rest key

/-- The calls `map.insert(pair)` and `map.emplace(key, v)`: a new entry is stored only when
the map has no entry for `key`; an existing entry is left as it is. -/
def mapInsert {β : Type} (m : List (String × β)) (key : String) (v : β) : List (String × β) :=
  match mapFind m key with
  | some _ => m
  | none => m ++ [(key, v)]

/-- The assignment `map[key] = v`: the entry for `key` is replaced, or created when absent. -/
def mapAssign {β : Type} (m : List (String × β)) (key : String) (v : β) : List (String × β) :=
  match mapFind m key with
  | some _ => m.map (fun e => if e.1 = key then (e.1, v) else e)
  | none => m ++ [(key, v)]

/-! ## The typed container `Settings` -/

/-- An `ExtruderTrain*`: the null pointer or the identity of an extruder. -/
abbrev ExtruderPtr := Option Nat

/-- A stored entry: `Setting(value, limit_to_extruder)`. -/
structure Setting where
  value : String
  limit_to_extruder : ExtruderPtr
deriving DecidableEq, Repr

/-- The class `Settings`: the member map `settings` and the pointer `parent`
(null when `none`). -/
inductive Settings where
  | mk (settings : List (String × Setting)) (parent : Option Settings)

/-- The message of the `logError` call on the fatal path of both resolvers. -/
def unregisteredMessage (key : String) : String :=
  "Trying to retrieve unregistered setting with no value given: '" ++ key ++ "'\n"

/-- The method `Settings::add(key, value, limit_to_extruder)`. -/
def Settings.add : Settings → String → String → ExtruderPtr → Settings
  | .mk settings parent, key, value, limit_to_extruder =>
    .mk (mapInsert settings key (Setting.mk value limit_to_extruder)) parent

/-- The method `Settings::get<std::string>(key)`. In the parent branch the returned string
is wrapped into a `Setting` (null marker) whose `value` is returned. -/
def Settings.get_string : Settings → String → Except Abort String
  | .mk settings parent, key =>
    match mapFind settings key with
    | some setting => .ok setting.value
    | none =>
      match parent with
      | some p =>
        match Settings.get_string p key with
        | .ok s => .ok (Setting.mk s none).value
        | .error e => .error e
      | none => .error (.exit (unregisteredMessage key) 2)

/-- The local maps along the parent chain: the requesting scope first, then its
parent, then the parent of the parent, and so on. -/
def Settings.chain : Settings → List (List (String × Setting))
  | .mk settings none => [settings]
  | .mk settings (some p) => settings :: Settings.chain p

/-- A local map with the redirect markers forgotten. -/
def textsOf (m : List (String × Setting)) : List (String × String) :=
  m.map (fun e => (e.1, e.2.value))

/-- The parent chain with the redirect markers forgotten. -/
def Settings.texts (s : Settings) : List (List (String × String)) :=
  s.chain.map textsOf

/-! ## Text conversions of the C library -/

/-- The test `isspace` in the "C" locale: space, `\t`, `\n`, `\v`, `\f`, `\r`. -/
def isspace (c : Char) : Bool :=
  c = ' ' || c = '\t' || c = '\n' || c = '\x0b' || c = '\x0c' || c = '\r'

/-- The test `isdigit`: the decimal digits `0` to `9`. -/
def isdigit (c : Char) : Bool :=
  48 ≤ c.toNat && c.toNat ≤ 57

/-- The value of a decimal digit. -/
def digitValue (c : Char) : Nat :=
  c.toNat - 48

/-- The digit loop of `strtol`, `strtoul` and `strtod`: the value of the longest
run of decimal digits at the start of the text, accumulated onto `acc`, and the
text after that run. -/
def scanDigits : List Char → Nat → Nat × List Char
  | [], acc => (acc, [])
  | c :: cs, acc => if isdigit c then scanDigits cs (10 * acc + digitValue c) else (acc, c :: cs)

/-- An optional sign: whether it is `-`, and the text after it. -/
def scanSign : List Char → Bool × List Char
  | '-' :: cs => (true, cs)
  | '+' :: cs => (false, cs)
  | cs => (false, cs)

/-- The subject sequence of `strtol`/`strtoul` in base 10: leading white space is
skipped, then an optional sign, then a non-empty run of digits. The result is
`none` when no conversion can be performed, otherwise the sign and the
magnitude. -/
def scanInteger (s : List Char) : Option (Bool × Nat) :=
  match scanSign (s.dropWhile isspace) with
  | (negative, c :: cs) =>
    if isdigit c then some (negative, (scanDigits (c :: cs) 0).1) else none
  | (_, []) => none

/-- The call `strtol(s, nullptr, 10)` with a 64-bit `long`: `0` when no conversion can be
performed, the value clamped to `LONG_MIN .. LONG_MAX` otherwise. -/
def strtol (s : List Char) : Int :=
  match scanInteger s with
  | none => 0
  | some (negative, n) =>
    if negative then max (-(n : Int)) (-(2 ^ 63)) else min (n : Int) (2 ^ 63 - 1)

/-- The conversion of a `long` to a 32-bit `int` (two's complement wrap). -/
def toInt32 (x : Int) : Int :=
  (x + 2 ^ 31) % 2 ^ 32 - 2 ^ 31

/-- The call `atoi(s)`, that is `(int) strtol(s, nullptr, 10)`. -/
def atoi (s : String) : Int :=
  toInt32 (strtol s.data)

/-- The call `std::stoul(s)` with a 64-bit `unsigned long`: `std::invalid_argument` when no
conversion can be performed, `std::out_of_range` when `strtoul` reports a range
error, otherwise the value, negated modulo `2^64` after a minus sign. -/
def stoul (s : String) : Except StdException Nat :=
  match scanInteger s.data with
  | none => .error .invalid_argument
  | some (negative, n) =>
    if 2 ^ 64 ≤ n then .error .out_of_range
    else .ok (if negative then (2 ^ 64 - n) % 2 ^ 64 else n)

/-- The exponent part of a decimal floating literal: `e` or `E`, an optional
sign and at least one digit; `0` when the text does not start with one. -/
def scanExponent : List Char → Int
  | [] => 0
  | c :: cs =>
    if c = 'e' ∨ c = 'E' then
      match scanSign cs with
      | (negative, d :: ds) =>
        if isdigit d then
          (if negative then -((scanDigits (d :: ds) 0).1 : Int) else ((scanDigits (d :: ds) 0).1 : Int))
        else 0
      | (_, []) => 0
    else 0

/-- The subject sequence of `strtod` in decimal notation: white space, an
optional sign, digits with an optional fraction (at least one digit in all) and
an optional exponent. The result is `none` when no conversion can be performed,
otherwise the sign, the value of all mantissa digits, the number of fraction
digits and the exponent. -/
def scanDecimal (s : List Char) : Option (Bool × Nat × Nat × Int) :=
  match scanSign (s.dropWhile isspace) with
  | (negative, u) =>
    match scanDigits u 0 with
    | (integerPart, afterInt) =>
      match afterInt with
      | '.' :: v =>
        match scanDigits v integerPart with
        | (mantissa, afterFrac) =>
          if u.length - afterInt.length + (v.length - afterFrac.length) = 0 then none
          else some (negative, mantissa, v.length - afterFrac.length, scanExponent afterFrac)
      | _ =>
        if u.length - afterInt.length = 0 then none
        else some (negative, integerPart, 0, scanExponent afterInt)

/-- A reading of `atof` on text in decimal notation, without rounding: `0` when
no conversion can be performed. The hexadecimal, infinity and NaN forms of
`strtod` have no place in it, which is why the getters below take `atof` as a
parameter. -/
def atofDecimal (s : String) : ℚ :=
  match scanDecimal s.data with
  | none => 0
  | some (negative, mantissa, fractionLength, exponent) =>
    (if negative then -1 else 1) * (mantissa : ℚ) * 10 ^ (exponent - (fractionLength : Int))

/-- The constant `M_PI` as written in the source, read exactly. -/
def M_PI : ℚ := 3.14159265358979323846

/-- The constant `TAU` of `AngleRadians.h`: `(2.0*M_PI)`. -/
def TAU : ℚ := 2.0 * M_PI

/-- Rounding toward zero, the quotient used by `std::fmod`. -/
def truncate (x : ℚ) : ℤ :=
  if 0 ≤ x then ⌊x⌋ else ⌈x⌉

/-- The call `std::fmod(x, y)` over exact numbers: the remainder `x - n * y` where `n` is
`x / y` rounded toward zero. -/
def fmod (x y : ℚ) : ℚ :=
  x - (truncate (x / y) : ℚ) * y

/-- The idiom `fmod(fmod(x, T) + T, T)` of the clock arithmetic. -/
def clock (x T : ℚ) : ℚ :=
  fmod (fmod x T + T) T

/-! ## `AngleRadians` -/

/-- The struct `AngleRadians` with its member `value`. -/
structure AngleRadians where
  value : ℚ
deriving DecidableEq

/-- The constructor `AngleRadians(double value)`. -/
def AngleRadians.ofDouble (value : ℚ) : AngleRadians :=
  ⟨fmod (fmod (value * M_PI / 180) TAU + TAU) TAU⟩

/-- The conversion `operator double()`. -/
def AngleRadians.toDouble (a : AngleRadians) : ℚ :=
  a.value

/-- The binary `operator +`: the `double` it computes is returned as an
`AngleRadians`, that is through the constructor. -/
def AngleRadians.operator_plus (a other : AngleRadians) : AngleRadians :=
  AngleRadians.ofDouble (fmod (fmod (a.value + other.value) TAU + TAU) TAU)

/-- The compound `operator +=`: the new state of the left operand. -/
def AngleRadians.operator_plus_assign (a other : AngleRadians) : AngleRadians :=
  ⟨fmod (fmod (a.value + other.value) TAU + TAU) TAU⟩

/-- The binary `operator -`: the `double` it computes is returned as an
`AngleRadians`, that is through the constructor. -/
def AngleRadians.operator_minus (a other : AngleRadians) : AngleRadians :=
  AngleRadians.ofDouble (fmod (fmod (a.value - other.value) TAU + TAU) TAU)

/-- The compound `operator -=`: the new state of the left operand. -/
def AngleRadians.operator_minus_assign (a other : AngleRadians) : AngleRadians :=
  ⟨fmod (fmod (a.value - other.value) TAU + TAU) TAU⟩

/-- The range invariant documented on the member `value`: `0 ≤ value < 2π`. -/
def AngleRadians.inRange (a : AngleRadians) : Prop :=
  0 ≤ a.value ∧ a.value < TAU

/-- One use of an operator of `AngleRadians` with right operand `other`. -/
inductive AngleOp where
  | plus (other : AngleRadians)
  | plus_assign (other : AngleRadians)
  | minus (other : AngleRadians)
  | minus_assign (other : AngleRadians)

/-- The angle obtained from `a` by one operator use. -/
def AngleRadians.apply (a : AngleRadians) : AngleOp → AngleRadians
  | .plus other => a.operator_plus other
  | .plus_assign other => a.operator_plus_assign other
  | .minus other => a.operator_minus other
  | .minus_assign other => a.operator_minus_assign other

/-- The method `Settings::get<int>(key)`: `atoi(get<std::string>(key).c_str())`. -/
def Settings.get_int (s : Settings) (key : String) : Except Abort Int :=
  match s.get_string key with
  | .ok text => .ok (atoi text)
  | .error a => .error a

/-- The method `Settings::get<double>(key)`: `atof(get<std::string>(key).c_str())`. -/
def Settings.get_double (atof : String → ℚ) (s : Settings) (key : String) : Except Abort ℚ :=
  match s.get_string key with
  | .ok text => .ok (atof text)
  | .error a => .error a

/-- The method `Settings::get<size_t>(key)`: `std::stoul(get<std::string>(key).c_str())`; an
exception of `std::stoul` is not caught. -/
def Settings.get_size_t (s : Settings) (key : String) : Except Abort Nat :=
  match s.get_string key with
  | .ok text =>
    match stoul text with
    | .ok n => .ok n
    | .error e => .error (.thrown e)
  | .error a => .error a

/-- The method `Settings::get<unsigned int>(key)`: `get<size_t>(key)` converted to 32 bits. -/
def Settings.get_unsigned_int (s : Settings) (key : String) : Except Abort Nat :=
  match s.get_size_t key with
  | .ok n => .ok (n % 2 ^ 32)
  | .error a => .error a

/-- The method `Settings::get<bool>(key)`. -/
def Settings.get_bool (s : Settings) (key : String) : Except Abort Bool :=
  match s.get_string key with
  | .ok value =>
    if value = "on" ∨ value = "yes" ∨ value = "true" ∨ value = "True" then .ok true
    else
      let num := atoi value
      .ok (decide (num ≠ 0))
  | .error a => .error a

/-- The method `Settings::get<AngleRadians>(key)`: the `double`
`get<double>(key) / 180.0 * M_PI` is returned as an `AngleRadians`, that is
through the constructor. -/
def Settings.get_AngleRadians (atof : String → ℚ) (s : Settings) (key : String) :
    Except Abort AngleRadians :=
  match s.get_double atof key with
  | .ok d => .ok (AngleRadians.ofDouble (d / 180.0 * M_PI))
  | .error a => .error a

/-! ## The legacy flat store -/

/-- An object behind a `SettingsBaseVirtual*`: a `SettingsBase` with its members
`setting_values`, `setting_inherit_base` and `parent`, or a `SettingsMessenger`
holding only the (non-null) `parent` it forwards to. -/
inductive SettingsBaseVirtual where
  | SettingsBase (setting_values : List (String × String))
      (setting_inherit_base : List (String × SettingsBaseVirtual))
      (parent : Option SettingsBaseVirtual)
  | SettingsMessenger (parent : SettingsBaseVirtual)

theorem sizeOf_mapFind_lt (key : String) :
    ∀ (m : List (String × SettingsBaseVirtual)) (target : SettingsBaseVirtual),
      mapFind m key = some target → sizeOf target < sizeOf m
  | [], _, h => by simp [mapFind] at h
  | (k, t) :: rest, target, h => by
    by_cases hk : k = key
    · simp only [mapFind, hk, if_true, Option.some.injEq] at h
      subst h
      simp only [List.cons.sizeOf_spec, Prod.mk.sizeOf_spec]
      omega
    · simp only [mapFind, hk, if_false] at h
      have := sizeOf_mapFind_lt key rest target h
      simp only [List.cons.sizeOf_spec]
      omega

/-- The virtual `getSettingString(key)`: `SettingsBase::getSettingString` on a
store, `SettingsMessenger::getSettingString` on a view. -/
def SettingsBaseVirtual.getSettingString (s : SettingsBaseVirtual) (key : String) :
    Except Abort String :=
  match s with
  | .SettingsBase setting_values setting_inherit_base parent =>
    match mapFind setting_values key with
    | some value => .ok value
    | none =>
      match h : mapFind setting_inherit_base key with
      | some target => SettingsBaseVirtual.getSettingString target key
      | none =>
        match parent with
        | some p => SettingsBaseVirtual.getSettingString p key
        | none => .error (.exit (unregisteredMessage key) (-1))
  | .SettingsMessenger parent => SettingsBaseVirtual.getSettingString parent key
termination_by sizeOf s
decreasing_by
  · have := sizeOf_mapFind_lt key setting_inherit_base target h
    simp only [SettingsBaseVirtual.SettingsBase.sizeOf_spec]
    omega
  · simp only [SettingsBaseVirtual.SettingsBase.sizeOf_spec, Option.some.sizeOf_spec]
    omega
  · simp only [SettingsBaseVirtual.SettingsMessenger.sizeOf_spec]
    omega

/-- The method `SettingsBase::_setSetting(key, value)` on the member `setting_values`. -/
def _setSetting (setting_values : List (String × String)) (key value : String) :
    List (String × String) :=
  mapAssign setting_values key value

/-- The virtual `setSetting(key, value)`; `settingExists` is the answer of
`SettingRegistry::getInstance()->settingExists`. The warning of the second
branch goes to the log only. A view forwards to its owner, whose new state is
what the view then refers to. -/
def SettingsBaseVirtual.setSetting (settingExists : String → Bool) :
    SettingsBaseVirtual → String → String → SettingsBaseVirtual
  | .SettingsBase setting_values setting_inherit_base parent, key, value =>
    if settingExists key then
      .SettingsBase (_setSetting setting_values key value) setting_inherit_base parent
    else
      .SettingsBase (_setSetting setting_values key value) setting_inherit_base parent
  | .SettingsMessenger parent, key, value =>
    .SettingsMessenger (SettingsBaseVirtual.setSetting settingExists parent key value)

/-- The virtual `setSettingInheritBase(key, parent)`:
`setting_inherit_base.emplace(key, &parent)` on a store, forwarded by a view. -/
def SettingsBaseVirtual.setSettingInheritBase :
    SettingsBaseVirtual → String → SettingsBaseVirtual → SettingsBaseVirtual
  | .SettingsBase setting_values setting_inherit_base parent, key, target =>
    .SettingsBase setting_values (mapInsert setting_inherit_base key target) parent
  | .SettingsMessenger parent, key, target =>
    .SettingsMessenger (SettingsBaseVirtual.setSettingInheritBase parent key target)

/-- The local maps of the stores consulted, in order, when `key` is resolved
from a scope with every local lookup missing: the scope itself, then the scopes
of its override target for `key` when one is registered, otherwise those of its
parent. -/
def SettingsBaseVirtual.resolutionChain (s : SettingsBaseVirtual) (key : String) :
    List (List (String × String)) :=
  match s with
  | .SettingsBase setting_values setting_inherit_base parent =>
    setting_values ::
      (match h : mapFind setting_inherit_base key with
       | some target => SettingsBaseVirtual.resolutionChain target key
       | none =>
         match parent with
         | some p => SettingsBaseVirtual.resolutionChain p key
         | none => [])
  | .SettingsMessenger parent => SettingsBaseVirtual.resolutionChain parent key
termination_by sizeOf s
decreasing_by
  · have := sizeOf_mapFind_lt key setting_inherit_base target h
    simp only [SettingsBaseVirtual.SettingsBase.sizeOf_spec]
    omega
  · simp only [SettingsBaseVirtual.SettingsBase.sizeOf_spec, Option.some.sizeOf_spec]
    omega
  · simp only [SettingsBaseVirtual.SettingsMessenger.sizeOf_spec]
    omega

/-- The value of a run of decimal digits, most significant digit first. -/
def decimalValue (digits : List Char) : Nat :=
  digits.foldl (fun acc c => 10 * acc + digitValue c) 0

/-- The text `t` starts with a numeral: optional white space `ws`, an optional
sign `sgn` (`negative` tells whether it is `-`), then the non-empty maximal run
`digits` of decimal digits. -/
def LeadingNumeral (t : List Char) (negative : Bool) (digits : List Char) : Prop :=
  ∃ ws sgn rest, t = ws ++ (sgn ++ (digits ++ rest)) ∧
    (∀ c ∈ ws, isspace c = true) ∧
    ((sgn = [] ∧ negative = false) ∨ (sgn = ['+'] ∧ negative = false) ∨
      (sgn = ['-'] ∧ negative = true)) ∧
    digits ≠ [] ∧ (∀ c ∈ digits, isdigit c = true) ∧
    (∀ c ∈ rest.head?, isdigit c = false)

/-! ## Sample scopes -/

/-- A grandchild scope holding only `b`, under a parent holding `a` (with a
redirect marker), under a root holding `a` and `c`. -/
def sampleChain : Settings :=
  .mk [("b", ⟨"local", none⟩)]
    (some (.mk [("a", ⟨"mid", some 1⟩)]
      (some (.mk [("a", ⟨"root", none⟩), ("c", ⟨"deep", none⟩)] none))))

/-- A store holding the local value `"local"` for `"k"`. -/
def storeWithLocal : SettingsBaseVirtual := .SettingsBase [("k", "local")] [] none

/-- A target scope in which `"k"` resolves to `"target"`. -/
def targetScope : SettingsBaseVirtual := .SettingsBase [("k", "target")] [] none

/-- A second target scope, in which `"k"` resolves to `"second"`. -/
def secondTarget : SettingsBaseVirtual := .SettingsBase [("k", "second")] [] none


/-- The container of the conversion examples: `"n"` holds `"abc"`, `"e"` holds the
empty text, `"d"` holds `"42nd"`, `"angle"` holds `"450"`. -/
def sampleTexts : Settings :=
  .mk [("n", ⟨"abc", none⟩), ("e", ⟨"", none⟩), ("d", ⟨"42nd", none⟩),
    ("angle", ⟨"450", none⟩)] none

/-! ## Further getters and the serialisation of the legacy store -/

/-- Modelled from the spec: the type `Velocity` (`types/Velocity.h` is not part of
the sources), a floating value built from a `double` as it is. -/
structure Velocity where
  value : ℚ
deriving DecidableEq

/-- The method `Settings::get<Velocity>(key)`: `std::max(0.0, get<double>(key))`
returned as a `Velocity`. -/
def Settings.get_Velocity (atof : String → ℚ) (s : Settings) (key : String) :
    Except Abort Velocity :=
  match s.get_double atof key with
  | .ok d => .ok ⟨max 0.0 d⟩
  | .error a => .error a

/-- The call `snprintf(buffer, 4096, " -s %s=\"%s\"", key, value)` followed by the
reading of `buffer`: the formatted text, cut after `4096 - 1` characters. -/
def formatSetting (key value : String) : String :=
  String.mk ((" -s " ++ key ++ "=\"" ++ value ++ "\"").data.take 4095)

/-- The method `SettingsBase::getAllLocalSettingsString()`: the loop over
`setting_values` appending to `sstream`. The parameter `Escaped` stands for
`Escaped{value.c_str()}.str` (`Escaped` is not part of the sources). -/
def getAllLocalSettingsString (Escaped : String → String)
    (setting_values : List (String × String))
    (_setting_inherit_base : List (String × SettingsBaseVirtual))
    (_parent : Option SettingsBaseVirtual) : String :=
  setting_values.foldl
    (fun sstream pair =>
      if pair.2 ≠ "" then sstream ++ formatSetting pair.1 (Escaped pair.2) else sstream)
    ""

/-- The token the serialisation is meant to emit for one entry, without the
bound of the buffer. -/
def settingToken (Escaped : String → String) (key value : String) : String :=
  " -s " ++ key ++ "=\"" ++ Escaped value ++ "\""

/-- The concatenation of a list of texts, in order. -/
def concatAll : List String → String
  | [] => ""
  | a :: rest => a ++ concatAll rest

/-- A value of 5000 characters. -/
def longValue : String :=
  String.mk (List.replicate 5000 'a')

/-! ## Regular expressions -/

/-- One item of the two regular expressions of the source: a literal character
(`\[`, `,`, `\]`), a greedy repetition of a character class without group
(`\s*`), or a capturing group around a greedy repetition of a character class
(`([^,\[]*)`). -/
inductive RegexAtom where
  | chr (c : Char)
  | star (p : Char → Bool)
  | group (p : Char → Bool)

/-- The ways a greedy repetition of the class `p` can match at the start of a
text, in the order a backtracking matcher tries them (longest first): the
characters matched and the text that remains. -/
def splits (p : Char → Bool) : List Char → List (List Char × List Char)
  | [] => [([], [])]
  | c :: cs =>
    if p c then (splits p cs).map (fun r => (c :: r.1, r.2)) ++ [([], c :: cs)]
    else [([], c :: cs)]

/-- All the matches of a sequence of items at the start of a text, in the order
a backtracking (ECMAScript) matcher finds them: the sub-matches of the groups,
in the order of the groups, and the text that remains after the match. -/
def matchAll : List RegexAtom → List Char → List (List (List Char) × List Char)
  | [], s => [([], s)]
  | .chr c :: atoms, s =>
    match s with
    | [] => []
    | x :: xs => if x = c then matchAll atoms xs else []
  | .star p :: atoms, s => (splits p s).flatMap (fun r => matchAll atoms r.2)
  | .group p :: atoms, s =>
    (splits p s).flatMap (fun r => (matchAll atoms r.2).map (fun m => (r.1 :: m.1, m.2)))

/-- The call `std::regex_match(text, sub_matches, regex)`: the whole text has to
match. The result is `sub_matches` as a sequence: the whole match, then the
sub-match of every group; it is empty when the text does not match. -/
def regex_match (atoms : List RegexAtom) (s : List Char) : List (List Char) :=
  match (matchAll atoms s).find? (fun m => m.2.isEmpty) with
  | some m => s :: m.1
  | none => []

/-- The search of `std::regex_search`: the first match at the leftmost position
that has one. The result is the sequence of sub-matches (the whole match first)
and the text after the match. -/
def regex_search (atoms : List RegexAtom) : List Char → Option (List (List Char) × List Char)
  | [] =>
    match (matchAll atoms []).head? with
    | some m => some ([] :: m.1, m.2)
    | none => none
  | c :: cs =>
    match (matchAll atoms (c :: cs)).head? with
    | some m => some ((c :: cs).take ((c :: cs).length - m.2.length) :: m.1, m.2)
    | none => regex_search atoms cs

/-- The matches a `std::regex_token_iterator` walks through: each search starts
where the match before it ended. A match of the expressions of the source is
never empty, so the iteration stops when a match consumes nothing; `fuel` bounds
the number of matches, and every bound above the length of the text gives the
same matches. -/
def regexMatches (atoms : List RegexAtom) : Nat → List Char → List (List (List Char))
  | 0, _ => []
  | fuel + 1, s =>
    match regex_search atoms s with
    | none => []
    | some (sub_matches, rest) =>
      sub_matches :: (if rest.length < s.length then regexMatches atoms fuel rest else [])

/-- The number of capturing groups of a sequence of items. -/
def groupCount : List RegexAtom → Nat
  | [] => 0
  | .group _ :: atoms => groupCount atoms + 1
  | _ :: atoms => groupCount atoms

/-- The language of a sequence of items, with the sub-matches: the text `s`
splits into the parts matched by the items, the groups matching `tokens` in
order, followed by `rest`. -/
def Decomp : List RegexAtom → List Char → List (List Char) → List Char → Prop
  | [], s, tokens, rest => tokens = [] ∧ rest = s
  | .chr c :: atoms, s, tokens, rest => ∃ xs, s = c :: xs ∧ Decomp atoms xs tokens rest
  | .star p :: atoms, s, tokens, rest =>
    ∃ w r, s = w ++ r ∧ (∀ c ∈ w, p c = true) ∧ Decomp atoms r tokens rest
  | .group p :: atoms, s, tokens, rest =>
    ∃ t r more, s = t ++ r ∧ (∀ c ∈ t, p c = true) ∧ tokens = t :: more ∧
      Decomp atoms r more rest

/-! ## `FlowTempGraph` -/

/-- Modelled from the spec: the type `FlowTempGraph` (its header is not part of
the sources), the ordered sequence `data` of (flow, temperature) points. -/
structure FlowTempGraph where
  data : List (ℚ × ℚ)
deriving DecidableEq

/-- The expression `(\[([^,\[]*),([^,\]]*)\])` of `get<FlowTempGraph>`. Its
group 1 encloses the whole expression, so sub-match 1 is the whole match; the
groups 2 and 3 are the two groups of this sequence. -/
def flowTempRegex : List RegexAtom :=
  [.chr '[', .group (fun c => c ≠ ',' && c ≠ '['), .chr ',',
    .group (fun c => c ≠ ',' && c ≠ ']'), .chr ']']

/-- The loop of `get<FlowTempGraph>` over the token iterator with the
sub-matches `{1, 2, 3}`. Every match gives three tokens, so one pass consumes
one match: the first increment skips sub-match 1 (the test for the end after it
never holds), the next two tokens are the sub-matches 2 and 3, here the entries
1 and 2 of the match. `std::invalid_argument` is caught (the pair is logged and
left out), `std::out_of_range` is not. -/
def flowTempLoop (stod : String → Except StdException ℚ) :
    List (List (List Char)) → FlowTempGraph → Except Abort FlowTempGraph
  | [], result => .ok result
  | sub_matches :: rest, result =>
    match stod (String.mk (sub_matches.getD 1 [])) with
    | .error .invalid_argument => flowTempLoop stod rest result
    | .error .out_of_range => .error (.thrown .out_of_range)
    | .ok first =>
      match stod (String.mk (sub_matches.getD 2 [])) with
      | .error .invalid_argument => flowTempLoop stod rest result
      | .error .out_of_range => .error (.thrown .out_of_range)
      | .ok second => flowTempLoop stod rest ⟨result.data ++ [(first, second)]⟩

/-- The method `Settings::get<FlowTempGraph>(key)`; `stod` is `std::stod`. -/
def Settings.get_FlowTempGraph (stod : String → Except StdException ℚ) (s : Settings)
    (key : String) : Except Abort FlowTempGraph :=
  match s.get_string key with
  | .error a => .error a
  | .ok value_string =>
    if value_string = "" then .ok ⟨[]⟩
    else
      flowTempLoop stod
        (regexMatches flowTempRegex (value_string.data.length + 1) value_string.data) ⟨[]⟩

/-- A reading of `std::stod` on text in decimal notation, without rounding:
`std::invalid_argument` when no conversion can be performed, `std::out_of_range`
when the magnitude is `2^1024` or more, which is beyond every `double`;
underflow is not part of this reading. -/
def stodDecimal (s : String) : Except StdException ℚ :=
  match scanDecimal s.data with
  | none => .error .invalid_argument
  | some (negative, mantissa, fractionLength, exponent) =>
    if 2 ^ 1024 ≤ (mantissa : ℚ) * 10 ^ (exponent - (fractionLength : Int)) then
      .error .out_of_range
    else
      .ok ((if negative then -1 else 1) * (mantissa : ℚ) *
        10 ^ (exponent - (fractionLength : Int)))

/-- One bracketed pair of a graph text with the text that follows it: the two
numerals, the numbers they stand for, and the separator after the pair. -/
structure GraphPair where
  first : List Char
  second : List Char
  x : ℚ
  y : ℚ
  sep : List Char

/-- A text without brackets. -/
def bracketFree (t : List Char) : Prop :=
  ∀ c ∈ t, c ≠ '[' ∧ c ≠ ']'

/-- A text without comma and brackets, as every numeral is. -/
def numeralText (t : List Char) : Prop :=
  ∀ c ∈ t, c ≠ ',' ∧ c ≠ '[' ∧ c ≠ ']'

/-- The text made of the separator `sep0` followed by the pairs `[first,second]`,
each with its separator. -/
def graphText (sep0 : List Char) : List GraphPair → List Char
  | [] => sep0
  | p :: rest => sep0 ++ ('[' :: (p.first ++ ',' :: (p.second ++ ']' :: graphText p.sep rest)))

/-! ## `FMatrix3x3` -/

/-- Modelled from the spec: the type `FMatrix3x3` (its header is not part of the
sources), a 3×3 grid `m` of doubles indexed as `m[i][j]`. -/
structure FMatrix3x3 where
  m : Fin 3 → Fin 3 → ℚ

/-- Modelled from the spec: the default value of `FMatrix3x3`, the identity
matrix `[[1,0,0], [0,1,0], [0,0,1]]`. -/
def FMatrix3x3.identity : FMatrix3x3 :=
  ⟨fun i j => if i = j then 1 else 0⟩

/-- The assignment `result.m[i][j] = v`. -/
def FMatrix3x3.set (r : FMatrix3x3) (i j : Fin 3) (v : ℚ) : FMatrix3x3 :=
  ⟨fun a b => if a = i ∧ b = j then v else r.m a b⟩

/-- The string `num` of `get<FMatrix3x3>`: `([^,\] ]*)`. -/
def num : List RegexAtom :=
  [.group (fun c => c ≠ ',' && c ≠ ']' && c ≠ ' ')]

/-- The string `row` of `get<FMatrix3x3>`:
`\s*\[\s*` num `\s*,\s*` num `\s*,\s*` num `\s*\]\s*`. -/
def row : List RegexAtom :=
  [.star isspace, .chr '[', .star isspace] ++ num ++ [.star isspace, .chr ',', .star isspace] ++
    num ++ [.star isspace, .chr ',', .star isspace] ++ num ++
    [.star isspace, .chr ']', .star isspace]

/-- The string `matrix` of `get<FMatrix3x3>`, the expression `point_matrix_regex`:
`\s*\[\s*` row `\s*,\s*` row `\s*,\s*` row `\]\s*`. -/
def point_matrix_regex : List RegexAtom :=
  [.star isspace, .chr '[', .star isspace] ++ row ++ [.star isspace, .chr ',', .star isspace] ++
    row ++ [.star isspace, .chr ',', .star isspace] ++ row ++ [.chr ']', .star isspace]

/-- The two nested loops of `get<FMatrix3x3>` over `x` and `y`, with the running
`sub_match_index` that starts at 1; `strtod` is `strtod(text, nullptr)`. -/
def fillMatrix (strtod : String → ℚ) (sub_matches : List (List Char)) : FMatrix3x3 :=
  (([0, 1, 2] : List (Fin 3)).foldl
    (fun state x =>
      ([0, 1, 2] : List (Fin 3)).foldl
        (fun st y =>
          (st.1.set y x (strtod (String.mk (sub_matches.getD st.2 []))), st.2 + 1))
        state)
    (FMatrix3x3.identity, 1)).1

/-- The method `Settings::get<FMatrix3x3>(key)`; `strtod` is `strtod(text, nullptr)`. -/
def Settings.get_FMatrix3x3 (strtod : String → ℚ) (s : Settings) (key : String) :
    Except Abort FMatrix3x3 :=
  match s.get_string key with
  | .error a => .error a
  | .ok value_string =>
    if value_string = "" then .ok FMatrix3x3.identity
    else
      let sub_matches := regex_match point_matrix_regex value_string.data
      if sub_matches.length ≠ 10 then .ok FMatrix3x3.identity
      else .ok (fillMatrix strtod sub_matches)

/-- A text whose only white space is the space character. -/
def spacesOnly (s : List Char) : Prop :=
  ∀ c ∈ s, isspace c = true → c = ' '

/-- The shape shared by the items of `point_matrix_regex`: no literal is a space,
every repetition without group is one of white space, and every group excludes
the space and is followed by white space and a literal that it excludes. -/
def Tidy : List RegexAtom → Prop
  | [] => True
  | .chr c :: atoms => c ≠ ' ' ∧ Tidy atoms
  | .star p :: atoms => (∀ c, p c = true → isspace c = true) ∧ Tidy atoms
  | .group p :: .star q :: .chr d :: atoms =>
    p ' ' = false ∧ p d = false ∧ isspace d = false ∧ Tidy (.star q :: .chr d :: atoms)
  | .group _ :: _ => False

/-- The container of the matrix examples. -/
def sampleMatrices : Settings :=
  .mk [("garbage", ⟨"garbage", none⟩), ("empty", ⟨"", none⟩),
    ("tworows", ⟨"[[1,2,3],[4,5,6]]", none⟩),
    ("trailing", ⟨"[[1,0,0],[0,1,0],[0,0,1]] x", none⟩),
    ("spaced", ⟨"[[1, 2 ,3],[4,5,6],[7,8,9]]", none⟩),
    ("unit", ⟨"[[1,0,0],[0,1,0],[0,0,1]]", none⟩),
    ("loose", ⟨"[[x,,3],[4,5,6],[7,8,9]]", none⟩)] none

/-- The container of the graph examples. -/
def sampleGraphs : Settings :=
  .mk [("two", ⟨"[0,200],[10,210]", none⟩), ("empty", ⟨"", none⟩),
    ("bad", ⟨"[abc,5]", none⟩), ("badgood", ⟨"[abc,5],[1,2]", none⟩),
    ("huge", ⟨"[1e999,5]", none⟩), ("badhuge", ⟨"[abc,5],[1e999,5],[1,2]", none⟩)] none


/-! # Theorems -/

/-! ### Facts about maps -/

theorem mapFind_append_of_none {β : Type} (m : List (String × β)) (key : String) (v : β)
    (k : String) (h : mapFind m k = none) :
    mapFind (m ++ [(key, v)]) k = if key = k then some v else none := by
  induction m with
  | nil => simp [mapFind]
  | cons e rest ih =>
    obtain ⟨k0, v0⟩ := e
    simp only [mapFind] at h
    simp only [List.cons_append, mapFind]
    by_cases hk : k0 = k
    · simp [hk] at h
    · simp only [hk, if_false] at h ⊢
      exact ih h

theorem mapFind_insert_self {β : Type} (m : List (String × β)) (key : String) (v : β) :
    mapFind (mapInsert m key v) key = some ((mapFind m key).getD v) := by
  unfold mapInsert
  cases h : mapFind m key with
  | some w => simp [h]
  | none => simp [mapFind_append_of_none m key v key h]

theorem mapInsert_of_some {β : Type} (m : List (String × β)) (key : String) (v w : β)
    (h : mapFind m key = some w) : mapInsert m key v = m := by
  simp [mapInsert, h]

theorem mapFind_textsOf (m : List (String × Setting)) (key : String) :
    mapFind (textsOf m) key = (mapFind m key).map Setting.value := by
  induction m with
  | nil => simp [textsOf, mapFind]
  | cons e rest ih =>
    obtain ⟨k0, v0⟩ := e
    simp only [textsOf, List.map_cons, mapFind] at ih ⊢
    by_cases hk : k0 = key
    · simp [hk]
    · simp only [hk, if_false]
      exact ih

/-! ### Resolution along the parent chain -/

theorem Settings.get_string_findSome : ∀ (s : Settings) (key : String),
    s.get_string key =
      match s.chain.findSome? (fun m => mapFind m key) with
      | some st => .ok st.value
      | none => .error (.exit (unregisteredMessage key) 2)
  | .mk settings none, key => by
    cases h : mapFind settings key <;> simp [Settings.get_string, Settings.chain, h]
  | .mk settings (some p), key => by
    have ih := Settings.get_string_findSome p key
    cases h : mapFind settings key with
    | some st => simp [Settings.get_string, Settings.chain, h]
    | none =>
      simp only [Settings.get_string, Settings.chain, h, List.findSome?_cons]
      rw [ih]
      cases Settings.chain p |>.findSome? (fun m => mapFind m key) <;> rfl

theorem findSome_at_first_index {α β : Type} (f : α → Option β) :
    ∀ (l : List α) (i : Nat) (a : α) (b : β), l[i]? = some a → f a = some b →
      (∀ j, j < i → ∀ c, l[j]? = some c → f c = none) → l.findSome? f = some b
  | [], i, a, b, h, _, _ => by simp at h
  | x :: rest, 0, a, b, h, hb, _ => by
    simp only [List.getElem?_cons_zero, Option.some.injEq] at h
    subst h
    simp [List.findSome?_cons, hb]
  | x :: rest, i + 1, a, b, h, hb, hlt => by
    have hx : f x = none := hlt 0 (Nat.succ_pos i) x (by simp)
    simp only [List.findSome?_cons, hx]
    simp only [List.getElem?_cons_succ] at h
    refine findSome_at_first_index f rest i a b h hb ?_
    intro j hj c hc
    exact hlt (j + 1) (Nat.succ_lt_succ hj) c (by simpa using hc)

theorem findSome_textsOf (key : String) (l : List (List (String × Setting))) :
    (l.map textsOf).findSome? (fun m => mapFind m key) =
      (l.findSome? (fun m => mapFind m key)).map Setting.value := by
  induction l with
  | nil => rfl
  | cons m rest ih =>
    simp only [List.map_cons, List.findSome?_cons, mapFind_textsOf]
    cases mapFind m key with
    | some st => rfl
    | none => simpa using ih

theorem Settings.get_string_texts (s : Settings) (key : String) :
    s.get_string key =
      match s.texts.findSome? (fun m => mapFind m key) with
      | some t => .ok t
      | none => .error (.exit (unregisteredMessage key) 2) := by
  rw [Settings.get_string_findSome, Settings.texts, findSome_textsOf]
  cases s.chain.findSome? (fun m => mapFind m key) <;> rfl

theorem textsOf_mapInsert (m : List (String × Setting)) (key value : String)
    (lim : ExtruderPtr) :
    textsOf (mapInsert m key (Setting.mk value lim)) = mapInsert (textsOf m) key value := by
  unfold mapInsert
  rw [mapFind_textsOf]
  cases mapFind m key <;> simp [textsOf]

theorem Settings.texts_add : ∀ (s : Settings) (key value : String) (lim lim2 : ExtruderPtr),
    (s.add key value lim).texts = (s.add key value lim2).texts
  | .mk settings none, key, value, lim, lim2 => by
    simp [Settings.add, Settings.texts, Settings.chain, textsOf_mapInsert]
  | .mk settings (some p), key, value, lim, lim2 => by
    simp [Settings.add, Settings.texts, Settings.chain, textsOf_mapInsert]

/-- C1: `Settings::get<std::string>` returns the text stored for the key in the
nearest scope of the parent chain that holds it (scope `i` holds it, no scope
before `i` does); the result depends only on the stored texts, not on the
redirect markers the entries were added with. -/
theorem get_string_nearest_scope (s : Settings) (key : String) :
    (∀ (i : Nat) (m : List (String × Setting)) (st : Setting),
        s.chain[i]? = some m → mapFind m key = some st →
        (∀ j, j < i → ∀ c, s.chain[j]? = some c → mapFind c key = none) →
        s.get_string key = .ok st.value) ∧
    (∀ s2 : Settings, s2.texts = s.texts → s2.get_string key = s.get_string key) ∧
    (∀ (k v : String) (lim lim2 : ExtruderPtr),
        (s.add k v lim).get_string key = (s.add k v lim2).get_string key) := by
  refine ⟨?_, ?_, ?_⟩
  · intro i m st hm hst hbefore
    rw [Settings.get_string_findSome,
      findSome_at_first_index (fun c => mapFind c key) s.chain i m st hm hst hbefore]
  · intro s2 h
    rw [Settings.get_string_texts, Settings.get_string_texts, h]
  · intro k v lim lim2
    rw [Settings.get_string_texts, Settings.get_string_texts, Settings.texts_add s k v lim lim2]

theorem get_string_nearest_scope_witness :
    sampleChain.get_string "c" = .ok "deep" ∧ sampleChain.get_string "a" = .ok "mid" :=
  ⟨(get_string_nearest_scope sampleChain "c").1 2
      [("a", ⟨"root", none⟩), ("c", ⟨"deep", none⟩)] ⟨"deep", none⟩ rfl rfl
      (by
        intro j hj c hc
        match j, hj with
        | 0, _ => cases hc; rfl
        | 1, _ => cases hc; rfl),
   (get_string_nearest_scope sampleChain "a").1 1 [("a", ⟨"mid", some 1⟩)] ⟨"mid", some 1⟩
      rfl rfl
      (by
        intro j hj c hc
        match j, hj with
        | 0, _ => cases hc; rfl)⟩

/-- C5: `Settings::get<std::string>` ends in the fatal error (the logged message
naming the key, `std::exit(2)`) exactly when no scope of the parent chain holds
the key; when some scope holds it a text is returned, and no other error exists. -/
theorem get_string_fatal_iff (s : Settings) (key : String) :
    (s.get_string key = .error (.exit (unregisteredMessage key) 2) ↔
        ∀ m ∈ s.chain, mapFind m key = none) ∧
    ((∃ m ∈ s.chain, (mapFind m key).isSome = true) → ∃ v, s.get_string key = .ok v) ∧
    (∀ e, s.get_string key = .error e → e = .exit (unregisteredMessage key) 2) := by
  rw [Settings.get_string_findSome]
  cases h : s.chain.findSome? (fun m => mapFind m key) with
  | none =>
    rw [List.findSome?_eq_none_iff] at h
    refine ⟨⟨fun _ => h, fun _ => rfl⟩, ?_, ?_⟩
    · rintro ⟨m, hm, hs⟩
      rw [h m hm] at hs
      cases hs
    · intro e he
      cases he
      rfl
  | some st =>
    obtain ⟨m, hm, hst⟩ := List.exists_of_findSome?_eq_some h
    refine ⟨⟨(fun he => by cases he), (fun hall => ?_)⟩, (fun _ => ⟨st.value, rfl⟩), ?_⟩
    · rw [hall m hm] at hst
      cases hst
    · intro e he
      cases he

theorem get_string_fatal_iff_witness :
    sampleChain.get_string "missing" = .error (.exit (unregisteredMessage "missing") 2) ∧
    (∃ v, sampleChain.get_string "c" = .ok v) :=
  ⟨(get_string_fatal_iff sampleChain "missing").1.2 (by
      intro m hm
      simp only [sampleChain, Settings.chain, List.mem_cons, List.mem_singleton,
        List.not_mem_nil, or_false] at hm
      rcases hm with h | h | h <;> subst h <;> rfl),
   (get_string_fatal_iff sampleChain "c").2.1
      ⟨[("a", ⟨"root", none⟩), ("c", ⟨"deep", none⟩)],
        by simp [sampleChain, Settings.chain], rfl⟩⟩

theorem Settings.add_add_same : ∀ (s : Settings) (key v1 v2 : String) (l1 l2 : ExtruderPtr),
    (s.add key v1 l1).add key v2 l2 = s.add key v1 l1
  | .mk settings parent, key, v1, v2, l1, l2 => by
    simp only [Settings.add]
    rw [mapInsert_of_some _ key _ _ (mapFind_insert_self settings key _)]

/-- C2 (what the code does): a second `Settings::add` for a key changes nothing,
so `get<std::string>` still returns the first text; on the empty container
`add("k","v1")`, `add("k","v2")` leaves `"v1"`, not `"v2"`. -/
theorem add_twice_keeps_first :
    (∀ (s : Settings) (key v1 v2 : String) (l1 l2 : ExtruderPtr),
        ((s.add key v1 l1).add key v2 l2).get_string key = (s.add key v1 l1).get_string key) ∧
    (((Settings.mk [] none).add "k" "v1" none).add "k" "v2" none).get_string "k" = .ok "v1" ∧
    (((Settings.mk [] none).add "k" "v1" none).add "k" "v2" none).get_string "k" ≠ .ok "v2" := by
  refine ⟨fun s key v1 v2 l1 l2 => by rw [Settings.add_add_same], rfl, by decide⟩

/-! ### The legacy flat store -/

theorem mapFind_map_assign {β : Type} (key : String) (v : β) :
    ∀ (m : List (String × β)) (w : β), mapFind m key = some w →
      mapFind (m.map (fun e => if e.1 = key then (e.1, v) else e)) key = some v
  | [], w, h => by simp [mapFind] at h
  | (k0, v0) :: rest, w, h => by
    by_cases hk : k0 = key
    · subst hk
      show mapFind ((if k0 = k0 then (k0, v) else (k0, v0)) :: _) k0 = some v
      rw [if_pos rfl]
      simp [mapFind]
    · simp only [mapFind, hk, if_false] at h
      show mapFind ((if k0 = key then (k0, v) else (k0, v0)) :: _) key = some v
      rw [if_neg hk]
      simp only [mapFind, hk, if_false]
      exact mapFind_map_assign key v rest w h

theorem mapFind_assign_self {β : Type} (m : List (String × β)) (key : String) (v : β) :
    mapFind (mapAssign m key v) key = some v := by
  unfold mapAssign
  cases h : mapFind m key with
  | none => simp [mapFind_append_of_none m key v key h]
  | some w => exact mapFind_map_assign key v m w h

theorem SettingsBaseVirtual.getSettingString_base (setting_values : List (String × String))
    (setting_inherit_base : List (String × SettingsBaseVirtual))
    (parent : Option SettingsBaseVirtual) (key : String) :
    (SettingsBaseVirtual.SettingsBase setting_values setting_inherit_base parent).getSettingString
        key =
      match mapFind setting_values key with
      | some value => .ok value
      | none =>
        match mapFind setting_inherit_base key with
        | some target => target.getSettingString key
        | none =>
          match parent with
          | some p => p.getSettingString key
          | none => .error (.exit (unregisteredMessage key) (-1)) := by
  cases parent with
  | none =>
    rw [SettingsBaseVirtual.getSettingString.eq_2]
    cases mapFind setting_values key with
    | some value => rfl
    | none =>
      simp only
      split <;> simp [*]
  | some p =>
    rw [SettingsBaseVirtual.getSettingString.eq_1]
    cases mapFind setting_values key with
    | some value => rfl
    | none =>
      simp only
      split <;> simp [*]

theorem SettingsBaseVirtual.resolutionChain_base (setting_values : List (String × String))
    (setting_inherit_base : List (String × SettingsBaseVirtual))
    (parent : Option SettingsBaseVirtual) (key : String) :
    (SettingsBaseVirtual.SettingsBase setting_values setting_inherit_base parent).resolutionChain
        key =
      setting_values ::
        (match mapFind setting_inherit_base key with
         | some target => target.resolutionChain key
         | none =>
           match parent with
           | some p => p.resolutionChain key
           | none => []) := by
  cases parent with
  | none =>
    rw [SettingsBaseVirtual.resolutionChain.eq_2]
    congr 1
    split <;> simp [*]
  | some p =>
    rw [SettingsBaseVirtual.resolutionChain.eq_1]
    congr 1
    split <;> simp [*]

theorem SettingsBaseVirtual.getSettingString_chain (key : String) :
    ∀ (n : Nat) (s : SettingsBaseVirtual), sizeOf s ≤ n →
      s.getSettingString key =
        match (s.resolutionChain key).findSome? (fun m => mapFind m key) with
        | some value => .ok value
        | none => .error (.exit (unregisteredMessage key) (-1))
  | 0, s, h => by
    cases s <;> simp only [SettingsBaseVirtual.SettingsBase.sizeOf_spec,
      SettingsBaseVirtual.SettingsMessenger.sizeOf_spec] at h <;> omega
  | n + 1, .SettingsMessenger p, h => by
    rw [SettingsBaseVirtual.getSettingString.eq_3, SettingsBaseVirtual.resolutionChain.eq_3]
    refine SettingsBaseVirtual.getSettingString_chain key n p ?_
    simp only [SettingsBaseVirtual.SettingsMessenger.sizeOf_spec] at h
    omega
  | n + 1, .SettingsBase vals inh parent, h => by
    rw [SettingsBaseVirtual.getSettingString_base, SettingsBaseVirtual.resolutionChain_base,
      List.findSome?_cons]
    simp only [SettingsBaseVirtual.SettingsBase.sizeOf_spec] at h
    cases hv : mapFind vals key with
    | some value => rfl
    | none =>
      simp only
      cases hi : mapFind inh key with
      | some target =>
        simp only
        refine SettingsBaseVirtual.getSettingString_chain key n target ?_
        have := sizeOf_mapFind_lt key inh target hi
        omega
      | none =>
        cases parent with
        | none => rfl
        | some p =>
          simp only
          refine SettingsBaseVirtual.getSettingString_chain key n p ?_
          simp only [Option.some.sizeOf_spec] at h
          omega

/-- C4: the resolution order of `SettingsBase::getSettingString`: the local
value if there is one; otherwise the full resolution of the override target
registered for the key; otherwise the resolution of the parent; otherwise the
fatal error (`std::exit(-1)`). -/
theorem getSettingString_resolution_order (setting_values : List (String × String))
    (setting_inherit_base : List (String × SettingsBaseVirtual))
    (parent : Option SettingsBaseVirtual) (key : String) :
    (SettingsBaseVirtual.SettingsBase setting_values setting_inherit_base parent).getSettingString
        key =
      match mapFind setting_values key with
      | some value => .ok value
      | none =>
        match mapFind setting_inherit_base key with
        | some target => target.getSettingString key
        | none =>
          match parent with
          | some p => p.getSettingString key
          | none => .error (.exit (unregisteredMessage key) (-1)) :=
  SettingsBaseVirtual.getSettingString_base setting_values setting_inherit_base parent key

/-- C3 (as stated, refuted): with the local value `"local"` stored for `"k"`,
before or after `setSettingInheritBase("k", T)` where `"k"` resolves to
`"target"` in `T`, `getSettingString("k")` returns `"local"`; and a registration
that comes after an earlier one for the same key does not redirect either. -/
theorem setSettingInheritBase_local_value_wins :
    targetScope.getSettingString "k" = .ok "target" ∧
    (storeWithLocal.setSettingInheritBase "k" targetScope).getSettingString "k" = .ok "local" ∧
    (((SettingsBaseVirtual.SettingsBase [] [] none).setSettingInheritBase "k" targetScope).setSetting
        (fun _ => true) "k" "local").getSettingString "k" = .ok "local" ∧
    secondTarget.getSettingString "k" = .ok "second" ∧
    (((SettingsBaseVirtual.SettingsBase [] [] none).setSettingInheritBase "k"
        targetScope).setSettingInheritBase "k" secondTarget).getSettingString "k" =
      .ok "target" := by
  simp [targetScope, storeWithLocal, secondTarget, SettingsBaseVirtual.getSettingString_base,
    SettingsBaseVirtual.setSettingInheritBase, SettingsBaseVirtual.setSetting, _setSetting,
    mapAssign, mapInsert, mapFind]

/-- C3 (amended): on a store with no override registered yet for the key, after
`setSettingInheritBase(k, T)` with `k` resolving to `t` in `T`,
`getSettingString(k)` returns `t` when the store holds no local value for `k`,
and the local value when it holds one, whether set before or after the
registration. -/
theorem setSettingInheritBase_redirects_without_local
    (setting_values : List (String × String))
    (setting_inherit_base : List (String × SettingsBaseVirtual))
    (parent : Option SettingsBaseVirtual) (key : String) (target : SettingsBaseVirtual)
    (t : String) (hfresh : mapFind setting_inherit_base key = none)
    (ht : target.getSettingString key = .ok t) :
    (mapFind setting_values key = none →
      ((SettingsBaseVirtual.SettingsBase setting_values setting_inherit_base
        parent).setSettingInheritBase key target).getSettingString key = .ok t) ∧
    (∀ v, mapFind setting_values key = some v →
      ((SettingsBaseVirtual.SettingsBase setting_values setting_inherit_base
        parent).setSettingInheritBase key target).getSettingString key = .ok v) ∧
    (∀ (settingExists : String → Bool) (v : String),
      (((SettingsBaseVirtual.SettingsBase setting_values setting_inherit_base
        parent).setSettingInheritBase key target).setSetting settingExists key
          v).getSettingString key = .ok v) := by
  refine ⟨?_, ?_, ?_⟩
  · intro hlocal
    rw [SettingsBaseVirtual.setSettingInheritBase, SettingsBaseVirtual.getSettingString_base,
      hlocal, mapFind_insert_self, hfresh]
    exact ht
  · intro v hlocal
    rw [SettingsBaseVirtual.setSettingInheritBase, SettingsBaseVirtual.getSettingString_base,
      hlocal]
  · intro settingExists v
    rw [SettingsBaseVirtual.setSettingInheritBase, SettingsBaseVirtual.setSetting]
    cases settingExists key <;>
      simp [SettingsBaseVirtual.getSettingString_base, _setSetting, mapFind_assign_self]

theorem setSettingInheritBase_redirects_without_local_witness :
    ((SettingsBaseVirtual.SettingsBase [("j", "other")] [] (some storeWithLocal)).setSettingInheritBase
        "k" targetScope).getSettingString "k" = .ok "target" :=
  (setSettingInheritBase_redirects_without_local [("j", "other")] [] (some storeWithLocal) "k"
    targetScope "target" rfl
    (by simp [targetScope, SettingsBaseVirtual.getSettingString_base, mapFind])).1 rfl

/-- C6: with no local value for the key and an override target registered for
it, `getSettingString` is the target's `getSettingString`, whatever the parent
is; when no store on the target's resolution chain holds the key the result is
the fatal error with `std::exit(-1)`, also when the parent holds the key. -/
theorem override_redirects_entirely (setting_values : List (String × String))
    (setting_inherit_base : List (String × SettingsBaseVirtual))
    (parent : Option SettingsBaseVirtual) (key : String) (target : SettingsBaseVirtual)
    (hlocal : mapFind setting_values key = none)
    (hoverride : mapFind setting_inherit_base key = some target) :
    (SettingsBaseVirtual.SettingsBase setting_values setting_inherit_base parent).getSettingString
        key = target.getSettingString key ∧
    (∀ parent2 : Option SettingsBaseVirtual,
      (SettingsBaseVirtual.SettingsBase setting_values setting_inherit_base
        parent2).getSettingString key =
      (SettingsBaseVirtual.SettingsBase setting_values setting_inherit_base
        parent).getSettingString key) ∧
    ((∀ m ∈ target.resolutionChain key, mapFind m key = none) →
      (SettingsBaseVirtual.SettingsBase setting_values setting_inherit_base
        parent).getSettingString key = .error (.exit (unregisteredMessage key) (-1))) := by
  have hS : ∀ q : Option SettingsBaseVirtual,
      (SettingsBaseVirtual.SettingsBase setting_values setting_inherit_base q).getSettingString
        key = target.getSettingString key := by
    intro q
    rw [SettingsBaseVirtual.getSettingString_base, hlocal, hoverride]
  refine ⟨hS parent, fun parent2 => by rw [hS parent2, hS parent], ?_⟩
  intro habsent
  rw [hS parent, SettingsBaseVirtual.getSettingString_chain key (sizeOf target) target le_rfl,
    List.findSome?_eq_none_iff.mpr habsent]

theorem override_redirects_entirely_witness :
    (SettingsBaseVirtual.SettingsBase [] [("k", .SettingsBase [("j", "x")] [] none)]
        (some storeWithLocal)).getSettingString "k" =
      .error (.exit (unregisteredMessage "k") (-1)) ∧
    storeWithLocal.getSettingString "k" = .ok "local" :=
  ⟨(override_redirects_entirely [] [("k", .SettingsBase [("j", "x")] [] none)]
      (some storeWithLocal) "k" (.SettingsBase [("j", "x")] [] none) rfl
      (by simp [mapFind])).2.2
      (by
        intro m hm
        simp [SettingsBaseVirtual.resolutionChain_base, mapFind] at hm
        subst hm
        simp [mapFind]),
   by simp [storeWithLocal, SettingsBaseVirtual.getSettingString_base, mapFind]⟩

/-! ### Text conversions -/

theorem scanDigits_eq : ∀ (l : List Char) (acc : Nat),
    scanDigits l acc =
      ((l.takeWhile isdigit).foldl (fun a c => 10 * a + digitValue c) acc, l.dropWhile isdigit)
  | [], acc => rfl
  | c :: cs, acc => by
    cases h : isdigit c with
    | true => simp [scanDigits, h, List.takeWhile_cons, List.dropWhile_cons, scanDigits_eq cs]
    | false => simp [scanDigits, h, List.takeWhile_cons, List.dropWhile_cons]

theorem takeWhile_append_stop {p : Char → Bool} : ∀ (l rest : List Char),
    (∀ c ∈ l, p c = true) → (∀ c ∈ rest.head?, p c = false) →
    (l ++ rest).takeWhile p = l ∧ (l ++ rest).dropWhile p = rest
  | [], [], _, _ => by simp
  | [], c :: r, _, h => by
    have hc : p c = false := h c (by simp)
    simp [List.takeWhile_cons, List.dropWhile_cons, hc]
  | x :: l, rest, hl, h => by
    have hx : p x = true := hl x (by simp)
    have ih := takeWhile_append_stop l rest (fun c hc => hl c (by simp [hc])) h
    simp [List.takeWhile_cons, List.dropWhile_cons, hx, ih.1, ih.2]

theorem isspace_of_isdigit {c : Char} (h : isdigit c = true) : isspace c = false := by
  have hc : 48 ≤ c.toNat := by
    simp only [isdigit, Bool.and_eq_true, decide_eq_true_eq] at h
    exact h.1
  simp only [isspace, Bool.or_eq_false_iff, decide_eq_false_iff_not]
  refine ⟨⟨⟨⟨⟨?_, ?_⟩, ?_⟩, ?_⟩, ?_⟩, ?_⟩ <;>
    · intro hEq
      subst hEq
      revert hc
      decide

theorem isdigit_ne_sign {c : Char} (h : isdigit c = true) : c ≠ '-' ∧ c ≠ '+' := by
  have hc : 48 ≤ c.toNat := by
    simp only [isdigit, Bool.and_eq_true, decide_eq_true_eq] at h
    exact h.1
  constructor <;>
    · intro hEq
      subst hEq
      revert hc
      decide

theorem scanSign_of_digit {c : Char} (cs : List Char) (h : isdigit c = true) :
    scanSign (c :: cs) = (false, c :: cs) := by
  obtain ⟨h1, h2⟩ := isdigit_ne_sign h
  unfold scanSign
  split
  · rename_i heq
    cases heq
    exact absurd rfl h1
  · rename_i heq
    cases heq
    exact absurd rfl h2
  · rfl

theorem scanInteger_of_leadingNumeral {t : List Char} {negative : Bool} {digits : List Char}
    (h : LeadingNumeral t negative digits) :
    scanInteger t = some (negative, decimalValue digits) := by
  obtain ⟨ws, sgn, rest, rfl, hws, hsgn, hne, hdig, hrest⟩ := h
  obtain ⟨d, ds, rfl⟩ := List.exists_cons_of_ne_nil hne
  have hd : isdigit d = true := hdig d (by simp)
  have hscan : scanDigits (d :: ds ++ rest) 0 = (decimalValue (d :: ds), rest) := by
    rw [scanDigits_eq]
    obtain ⟨h1, h2⟩ := takeWhile_append_stop (d :: ds) rest hdig hrest
    rw [h1, h2]
    rfl
  have hdrop : ∀ x : Char, isspace x = false → ∀ tail : List Char,
      (ws ++ x :: tail).dropWhile isspace = x :: tail := by
    intro x hx tail
    exact (@takeWhile_append_stop (fun c => isspace c) ws (x :: tail)
      (by simpa using hws) (by simpa using hx)).2
  unfold scanInteger
  rcases hsgn with ⟨rfl, rfl⟩ | ⟨rfl, rfl⟩ | ⟨rfl, rfl⟩
  · rw [List.nil_append, List.cons_append, hdrop d (isspace_of_isdigit hd),
      scanSign_of_digit _ hd]
    simp only [hd, if_true]
    rw [← List.cons_append, hscan]
  · rw [List.singleton_append, hdrop '+' (by decide)]
    simp only [scanSign, List.cons_append, hd, if_true]
    rw [← List.cons_append, hscan]
  · rw [List.singleton_append, hdrop '-' (by decide)]
    simp only [scanSign, List.cons_append, hd, if_true]
    rw [← List.cons_append, hscan]

theorem scanSign_split (u : List Char) :
    ∃ sgn, u = sgn ++ (scanSign u).2 ∧
      ((sgn = [] ∧ (scanSign u).1 = false) ∨ (sgn = ['+'] ∧ (scanSign u).1 = false) ∨
        (sgn = ['-'] ∧ (scanSign u).1 = true)) := by
  unfold scanSign
  split
  · exact ⟨['-'], rfl, Or.inr (Or.inr ⟨rfl, rfl⟩)⟩
  · exact ⟨['+'], rfl, Or.inr (Or.inl ⟨rfl, rfl⟩)⟩
  · exact ⟨[], rfl, Or.inl ⟨rfl, rfl⟩⟩

theorem leadingNumeral_of_scanInteger {t : List Char} {negative : Bool} {n : Nat}
    (h : scanInteger t = some (negative, n)) :
    ∃ digits, LeadingNumeral t negative digits ∧ n = decimalValue digits := by
  unfold scanInteger at h
  obtain ⟨sgn, hu, hsgn⟩ := scanSign_split (t.dropWhile isspace)
  cases hv : scanSign (t.dropWhile isspace) with
  | mk neg v =>
    rw [hv] at h hu hsgn
    cases v with
    | nil => simp at h
    | cons c cs =>
      simp only at h hu hsgn
      cases hc : isdigit c with
      | false => simp [hc] at h
      | true =>
        simp only [hc, if_true, Option.some.injEq, Prod.mk.injEq] at h
        obtain ⟨rfl, rfl⟩ := h
        refine ⟨(c :: cs).takeWhile isdigit, ⟨t.takeWhile isspace, sgn,
          (c :: cs).dropWhile isdigit, ?_, ?_, hsgn, ?_, ?_, ?_⟩, ?_⟩
        · rw [List.takeWhile_append_dropWhile, ← hu, List.takeWhile_append_dropWhile]
        · intro x hx
          exact (List.mem_takeWhile_imp hx)
        · simp [List.takeWhile_cons, hc]
        · intro x hx
          exact (List.mem_takeWhile_imp hx)
        · intro x hx
          have := List.head?_dropWhile_not isdigit (c :: cs)
          rw [Option.mem_def] at hx
          rw [hx] at this
          simpa using this
        · rw [scanDigits_eq]
          rfl

/-! ### Clock arithmetic -/

theorem TAU_pos : 0 < TAU := by
  norm_num [TAU, M_PI]

theorem fmod_nonneg_range {x T : ℚ} (hT : 0 < T) (hx : 0 ≤ x) :
    0 ≤ fmod x T ∧ fmod x T < T := by
  have hq : 0 ≤ x / T := div_nonneg hx hT.le
  have h1 : (⌊x / T⌋ : ℚ) ≤ x / T := Int.floor_le _
  have h2 : x / T < ⌊x / T⌋ + 1 := Int.lt_floor_add_one _
  rw [le_div_iff₀ hT] at h1
  rw [div_lt_iff₀ hT] at h2
  simp only [fmod, truncate, hq, if_true]
  constructor <;> nlinarith

theorem fmod_gt_neg {x T : ℚ} (hT : 0 < T) : -T < fmod x T := by
  by_cases hx : 0 ≤ x
  · have := (fmod_nonneg_range hT hx).1
    linarith
  · have hq : ¬ 0 ≤ x / T := by
      rw [not_le] at hx ⊢
      exact div_neg_of_neg_of_pos hx hT
    have h2 : (⌈x / T⌉ : ℚ) < x / T + 1 := Int.ceil_lt_add_one _
    rw [← sub_lt_iff_lt_add, lt_div_iff₀ hT] at h2
    simp only [fmod, truncate, hq, if_false]
    nlinarith

theorem fmod_sub_int_mul (x T : ℚ) : ∃ k : ℤ, fmod x T = x - k * T :=
  ⟨truncate (x / T), rfl⟩

theorem clock_range {T : ℚ} (hT : 0 < T) (x : ℚ) : 0 ≤ clock x T ∧ clock x T < T := by
  have h := fmod_gt_neg (x := x) hT
  exact fmod_nonneg_range hT (by linarith)

theorem clock_eq_floor {T : ℚ} (hT : 0 < T) (x : ℚ) :
    clock x T = x - (⌊x / T⌋ : ℚ) * T := by
  obtain ⟨h0, h1⟩ := clock_range hT x
  obtain ⟨k1, hk1⟩ := fmod_sub_int_mul x T
  obtain ⟨k2, hk2⟩ := fmod_sub_int_mul (fmod x T + T) T
  have hv : clock x T = x - ((k1 + k2 - 1 : ℤ) : ℚ) * T := by
    unfold clock
    rw [hk2, hk1]
    push_cast
    ring
  have hfl : ⌊x / T⌋ = k1 + k2 - 1 := by
    rw [Int.floor_eq_iff]
    rw [hv] at h0 h1
    constructor
    · rw [le_div_iff₀ hT]
      linarith
    · rw [div_lt_iff₀ hT]
      linarith
  rw [hfl, hv]


/-! ### Integer and boolean conversions -/

theorem scanInteger_none_of_no_numeral {t : List Char}
    (h : ¬ ∃ negative digits, LeadingNumeral t negative digits) : scanInteger t = none := by
  cases hs : scanInteger t with
  | none => rfl
  | some r =>
    obtain ⟨negative, n⟩ := r
    obtain ⟨digits, hd, _⟩ := leadingNumeral_of_scanInteger hs
    exact absurd ⟨negative, digits, hd⟩ h

theorem toInt32_of_range {v : Int} (h1 : -(2 ^ 31) ≤ v) (h2 : v < 2 ^ 31) : toInt32 v = v := by
  unfold toInt32
  omega

theorem atoi_of_leadingNumeral {t : String} {negative : Bool} {digits : List Char}
    (h : LeadingNumeral t.data negative digits)
    (h1 : -(2 ^ 31) ≤ (if negative then -(decimalValue digits : Int) else decimalValue digits))
    (h2 : (if negative then -(decimalValue digits : Int) else decimalValue digits) < 2 ^ 31) :
    atoi t = if negative then -(decimalValue digits : Int) else decimalValue digits := by
  unfold atoi strtol
  rw [scanInteger_of_leadingNumeral h]
  cases negative with
  | true =>
    simp only [if_true] at h1 h2 ⊢
    rw [max_eq_left (by omega)]
    exact toInt32_of_range h1 h2
  | false =>
    simp only [Bool.false_eq_true, if_false] at h1 h2 ⊢
    rw [min_eq_left (by omega)]
    exact toInt32_of_range h1 h2

theorem stoul_of_leadingNumeral {t : String} {digits : List Char}
    (h : LeadingNumeral t.data false digits) (hfit : decimalValue digits < 2 ^ 64) :
    stoul t = .ok (decimalValue digits) := by
  unfold stoul
  rw [scanInteger_of_leadingNumeral h]
  simp only
  rw [if_neg (by omega)]
  rfl

/-- C7 (as stated, refuted): on the texts `"abc"` and `""`, `get<size_t>` and
`get<unsigned int>` do not return `0`: `std::stoul` throws
`std::invalid_argument`; `get<int>` does return `0`. -/
theorem get_size_t_throws_on_non_numeric :
    sampleTexts.get_string "n" = .ok "abc" ∧ sampleTexts.get_string "e" = .ok "" ∧
    sampleTexts.get_size_t "n" = .error (.thrown .invalid_argument) ∧
    sampleTexts.get_size_t "e" = .error (.thrown .invalid_argument) ∧
    sampleTexts.get_unsigned_int "n" = .error (.thrown .invalid_argument) ∧
    sampleTexts.get_unsigned_int "e" = .error (.thrown .invalid_argument) ∧
    sampleTexts.get_size_t "n" ≠ .ok 0 ∧ sampleTexts.get_unsigned_int "n" ≠ .ok 0 ∧
    sampleTexts.get_int "n" = .ok 0 ∧ sampleTexts.get_int "e" = .ok 0 := by
  decide

/-- C7 (amended): on a key resolving to the text `t`, `get<int>` never fails; when
`t` is empty or has no leading numeral it returns `0`, while `get<size_t>` and
`get<unsigned int>` end in `std::invalid_argument`; when `t` has a leading
numeral, `get<int>` returns its signed value if that fits 32 bits, and
`get<size_t>`, `get<unsigned int>` return the value of an unsigned numeral if it
fits 64, respectively 32 bits. -/
theorem numeric_conversions_on_text (s : Settings) (key t : String)
    (ht : s.get_string key = .ok t) :
    (∃ n, s.get_int key = .ok n) ∧
    ((¬ ∃ negative digits, LeadingNumeral t.data negative digits) →
      s.get_int key = .ok 0 ∧
      s.get_size_t key = .error (.thrown .invalid_argument) ∧
      s.get_unsigned_int key = .error (.thrown .invalid_argument)) ∧
    (∀ negative digits, LeadingNumeral t.data negative digits →
      (-(2 ^ 31) ≤ (if negative then -(decimalValue digits : Int) else decimalValue digits) →
        (if negative then -(decimalValue digits : Int) else decimalValue digits) < 2 ^ 31 →
        s.get_int key =
          .ok (if negative then -(decimalValue digits : Int) else decimalValue digits)) ∧
      (negative = false → decimalValue digits < 2 ^ 64 →
        s.get_size_t key = .ok (decimalValue digits)) ∧
      (negative = false → decimalValue digits < 2 ^ 32 →
        s.get_unsigned_int key = .ok (decimalValue digits))) := by
  refine ⟨⟨atoi t, by simp [Settings.get_int, ht]⟩, ?_, ?_⟩
  · intro hno
    have hscan := scanInteger_none_of_no_numeral hno
    have hsize : s.get_size_t key = .error (.thrown .invalid_argument) := by
      simp [Settings.get_size_t, ht, stoul, hscan]
    refine ⟨?_, hsize, ?_⟩
    · simp [Settings.get_int, ht, atoi, strtol, hscan, toInt32]
    · simp [Settings.get_unsigned_int, hsize]
  · intro negative digits hnum
    have hscan := scanInteger_of_leadingNumeral hnum
    refine ⟨?_, ?_, ?_⟩
    · intro h1 h2
      simp only [Settings.get_int, ht]
      rw [atoi_of_leadingNumeral hnum h1 h2]
    · intro hneg hfit
      subst hneg
      simp only [Settings.get_size_t, ht, stoul_of_leadingNumeral hnum hfit]
    · intro hneg hfit
      subst hneg
      have hsize : s.get_size_t key = .ok (decimalValue digits) := by
        simp only [Settings.get_size_t, ht, stoul_of_leadingNumeral hnum (by omega)]
      simp only [Settings.get_unsigned_int, hsize]
      rw [Nat.mod_eq_of_lt hfit]

theorem numeric_conversions_on_text_witness :
    sampleTexts.get_int "d" = .ok 42 ∧ sampleTexts.get_size_t "d" = .ok 42 ∧
    sampleTexts.get_unsigned_int "d" = .ok 42 :=
  have hnum : LeadingNumeral "42nd".data false ['4', '2'] :=
    ⟨[], [], ['n', 'd'], rfl, by simp, Or.inl ⟨rfl, rfl⟩, by simp, by decide, by decide⟩
  have h := (numeric_conversions_on_text sampleTexts "d" "42nd" rfl).2.2 false ['4', '2'] hnum
  ⟨h.1 (by decide) (by decide), h.2.1 rfl (by decide), h.2.2 rfl (by decide)⟩

/-- C10: on a key resolving to the text `s`, `get<bool>` returns `true` exactly
when `s` is one of `"on"`, `"yes"`, `"true"`, `"True"` or `atoi(s)` is not zero;
so `"true"`, `"True"`, `"yes"`, `"on"`, `"5"` give `true` and `"0"`, `"false"`,
`"TRUE"`, `""` give `false`. -/
theorem get_bool_true_iff (c : Settings) (key s : String) (hs : c.get_string key = .ok s) :
    (∃ b, c.get_bool key = .ok b ∧
      (b = true ↔ (s = "on" ∨ s = "yes" ∨ s = "true" ∨ s = "True" ∨ atoi s ≠ 0))) ∧
    (s ∈ ["true", "True", "yes", "on", "5"] → c.get_bool key = .ok true) ∧
    (s ∈ ["0", "false", "TRUE", ""] → c.get_bool key = .ok false) := by
  have hget : c.get_bool key =
      if s = "on" ∨ s = "yes" ∨ s = "true" ∨ s = "True" then .ok true
      else .ok (decide (atoi s ≠ 0)) := by
    simp only [Settings.get_bool, hs]
  refine ⟨?_, ?_, ?_⟩
  · by_cases hlit : s = "on" ∨ s = "yes" ∨ s = "true" ∨ s = "True"
    · refine ⟨true, by rw [hget, if_pos hlit], ?_⟩
      simp only [true_iff]
      rcases hlit with h | h | h | h
      · exact Or.inl h
      · exact Or.inr (Or.inl h)
      · exact Or.inr (Or.inr (Or.inl h))
      · exact Or.inr (Or.inr (Or.inr (Or.inl h)))
    · refine ⟨decide (atoi s ≠ 0), by rw [hget, if_neg hlit], ?_⟩
      simp only [decide_eq_true_eq]
      constructor
      · intro h
        exact Or.inr (Or.inr (Or.inr (Or.inr h)))
      · rintro (h | h | h | h | h)
        · exact absurd (Or.inl h) hlit
        · exact absurd (Or.inr (Or.inl h)) hlit
        · exact absurd (Or.inr (Or.inr (Or.inl h))) hlit
        · exact absurd (Or.inr (Or.inr (Or.inr h))) hlit
        · exact h
  · intro hmem
    rw [hget]
    simp only [List.mem_cons, List.mem_singleton, List.not_mem_nil, or_false] at hmem
    rcases hmem with h | h | h | h | h <;> subst h <;> decide
  · intro hmem
    rw [hget]
    simp only [List.mem_cons, List.mem_singleton, List.not_mem_nil, or_false] at hmem
    rcases hmem with h | h | h | h <;> subst h <;> decide

theorem get_bool_true_iff_witness :
    (Settings.mk [("flag", ⟨"True", none⟩)] none).get_bool "flag" = .ok true ∧
    (Settings.mk [("flag", ⟨"TRUE", none⟩)] none).get_bool "flag" = .ok false :=
  ⟨(get_bool_true_iff (.mk [("flag", ⟨"True", none⟩)] none) "flag" "True" rfl).2.1 (by decide),
   (get_bool_true_iff (.mk [("flag", ⟨"TRUE", none⟩)] none) "flag" "TRUE" rfl).2.2 (by decide)⟩

/-! ### Angles -/

theorem floor_eq_zero_of_range {q : ℚ} (h0 : 0 ≤ q) (h1 : q < 1) : ⌊q⌋ = 0 := by
  rw [Int.floor_eq_iff]
  constructor
  · simpa using h0
  · simpa using h1

theorem clock_of_range {T x : ℚ} (hT : 0 < T) (h0 : 0 ≤ x) (h1 : x < T) : clock x T = x := by
  rw [clock_eq_floor hT, floor_eq_zero_of_range (div_nonneg h0 hT.le) ((div_lt_one hT).mpr h1)]
  simp

theorem Settings.get_AngleRadians_of_text (atof : String → ℚ) (s : Settings) (key t : String)
    (ht : s.get_string key = .ok t) :
    s.get_AngleRadians atof key =
      .ok ⟨clock (atof t / 180.0 * M_PI * M_PI / 180) TAU⟩ := by
  simp only [Settings.get_AngleRadians, Settings.get_double, ht, AngleRadians.ofDouble, clock]

theorem atofDecimal_450 : atofDecimal "450" = 450 := by
  have h : scanDecimal "450".data = some (false, 450, 0, 0) := by decide
  simp [atofDecimal, h]

/-- C8 (what the code does): on the text `"450"`, `get<AngleRadians>` has the value
`M_PI * M_PI / 72` (about 0.137), because the radians `450 / 180 * M_PI` go
through the constructor, which multiplies by `M_PI / 180` once more; the value
`(450 * pi / 180) mod 2 pi` of the claim is `M_PI / 2`, a different number. -/
theorem get_AngleRadians_converts_twice :
    sampleTexts.get_string "angle" = .ok "450" ∧
    sampleTexts.get_AngleRadians atofDecimal "angle" = .ok ⟨M_PI * M_PI / 72⟩ ∧
    clock (450 * M_PI / 180) TAU = M_PI / 2 ∧
    M_PI * M_PI / 72 ≠ M_PI / 2 := by
  refine ⟨rfl, ?_, ?_, ?_⟩
  · rw [Settings.get_AngleRadians_of_text atofDecimal sampleTexts "angle" "450" rfl,
      atofDecimal_450]
    have hv : (450 : ℚ) / 180.0 * M_PI * M_PI / 180 = M_PI * M_PI / 72 := by
      norm_num
      ring
    rw [hv, clock_of_range TAU_pos (by norm_num [M_PI]) (by norm_num [M_PI, TAU])]
  · rw [clock_eq_floor TAU_pos]
    have hfl : ⌊450 * M_PI / 180 / TAU⌋ = 1 := by
      rw [Int.floor_eq_iff]
      constructor <;> norm_num [M_PI, TAU]
    rw [hfl]
    norm_num [M_PI, TAU]
  · norm_num [M_PI]

theorem mapFind_append {β : Type} (m n : List (String × β)) (k : String) :
    mapFind (m ++ n) k = (mapFind m k).orElse (fun _ => mapFind n k) := by
  induction m with
  | nil => simp [mapFind]
  | cons e rest ih =>
    obtain ⟨k0, v0⟩ := e
    by_cases hk : k0 = k
    · simp [mapFind, hk]
    · simp only [List.cons_append, mapFind, hk, if_false]
      exact ih

theorem mapFind_map_assign_other {β : Type} (key : String) (v : β) (k : String)
    (hk : k ≠ key) :
    ∀ m : List (String × β),
      mapFind (m.map (fun e => if e.1 = key then (e.1, v) else e)) k = mapFind m k
  | [] => rfl
  | (k0, v0) :: rest => by
    have ih := mapFind_map_assign_other key v k hk rest
    by_cases h0 : k0 = key
    · subst h0
      show mapFind ((if k0 = k0 then (k0, v) else (k0, v0)) :: _) k = _
      rw [if_pos rfl]
      have hne : ¬ k0 = k := fun h => hk h.symm
      simp only [mapFind, hne, if_false]
      exact ih
    · show mapFind ((if k0 = key then (k0, v) else (k0, v0)) :: _) k = _
      rw [if_neg h0]
      by_cases h1 : k0 = k
      · simp [mapFind, h1]
      · simp only [mapFind, h1, if_false]
        exact ih

theorem mapFind_assign_other {β : Type} (m : List (String × β)) (key : String) (v : β)
    (k : String) (hk : k ≠ key) : mapFind (mapAssign m key v) k = mapFind m k := by
  unfold mapAssign
  cases h : mapFind m key with
  | none =>
    have hne : ¬ key = k := fun h => hk h.symm
    simp only [mapFind_append, mapFind, hne, if_false]
    cases mapFind m k <;> rfl
  | some w => exact mapFind_map_assign_other key v k hk m

theorem SettingsBaseVirtual.setSetting_base (settingExists : String → Bool)
    (setting_values : List (String × String))
    (setting_inherit_base : List (String × SettingsBaseVirtual))
    (parent : Option SettingsBaseVirtual) (key value : String) :
    (SettingsBaseVirtual.SettingsBase setting_values setting_inherit_base parent).setSetting
        settingExists key value =
      .SettingsBase (mapAssign setting_values key value) setting_inherit_base parent := by
  rw [SettingsBaseVirtual.setSetting]
  cases settingExists key <;> rfl

/-- C15: `SettingsBase::setSetting(k, v)` writes whatever `settingExists(k)`
answers: afterwards `getSettingString(k)` returns `v`, the new store has the
same overrides and parent, and the local value of every other key is the one it
had. -/
theorem setSetting_writes_unconditionally (settingExists : String → Bool)
    (setting_values : List (String × String))
    (setting_inherit_base : List (String × SettingsBaseVirtual))
    (parent : Option SettingsBaseVirtual) (k v : String) :
    ((SettingsBaseVirtual.SettingsBase setting_values setting_inherit_base parent).setSetting
        settingExists k v).getSettingString k = .ok v ∧
    (∃ values2,
      (SettingsBaseVirtual.SettingsBase setting_values setting_inherit_base parent).setSetting
          settingExists k v = .SettingsBase values2 setting_inherit_base parent ∧
      mapFind values2 k = some v ∧
      ∀ k2, k2 ≠ k → mapFind values2 k2 = mapFind setting_values k2) := by
  rw [SettingsBaseVirtual.setSetting_base]
  refine ⟨?_, mapAssign setting_values k v, rfl, mapFind_assign_self _ _ _, ?_⟩
  · rw [SettingsBaseVirtual.getSettingString_base, mapFind_assign_self]
  · intro k2 hk2
    exact mapFind_assign_other _ _ _ _ hk2

theorem setSetting_writes_unconditionally_witness :
    ∃ values2,
      (SettingsBaseVirtual.SettingsBase [("k", "old"), ("j", "kept")]
          [("k", targetScope)] (some storeWithLocal)).setSetting (fun _ => false) "k" "new" =
        .SettingsBase values2 [("k", targetScope)] (some storeWithLocal) ∧
      mapFind values2 "k" = some "new" ∧ mapFind values2 "j" = some "kept" :=
  match (setSetting_writes_unconditionally (fun _ => false) [("k", "old"), ("j", "kept")]
      [("k", targetScope)] (some storeWithLocal) "k" "new").2 with
  | ⟨values2, h1, h2, h3⟩ => ⟨values2, h1, h2, (h3 "j" (by decide)).trans rfl⟩

/-- C17: a `SettingsMessenger` over the owner `O` answers `getSettingString` as `O`
does, and its `setSetting` and `setSettingInheritBase` are the owner's: the view
afterwards refers to the owner in the state the owner's own call produces (the
view is nothing but the reference to its owner). -/
theorem messenger_forwards_to_owner (O : SettingsBaseVirtual) :
    (∀ key, (SettingsBaseVirtual.SettingsMessenger O).getSettingString key =
      O.getSettingString key) ∧
    (∀ settingExists k v, (SettingsBaseVirtual.SettingsMessenger O).setSetting settingExists k v =
      .SettingsMessenger (O.setSetting settingExists k v)) ∧
    (∀ k T, (SettingsBaseVirtual.SettingsMessenger O).setSettingInheritBase k T =
      .SettingsMessenger (O.setSettingInheritBase k T)) :=
  ⟨fun key => SettingsBaseVirtual.getSettingString.eq_3 key O, fun _ _ _ => rfl,
    fun _ _ => rfl⟩

/-- C20: after `setSettingInheritBase(k, T1)` a later `setSettingInheritBase(k, T2)`
leaves the store as it is; when `T1` was the first override registered for `k`
and the store has no local value for `k`, `getSettingString(k)` is that of `T1`
whatever `T2` is. -/
theorem first_override_is_permanent (setting_values : List (String × String))
    (setting_inherit_base : List (String × SettingsBaseVirtual))
    (parent : Option SettingsBaseVirtual) (k : String) (T1 T2 : SettingsBaseVirtual) :
    (((SettingsBaseVirtual.SettingsBase setting_values setting_inherit_base
        parent).setSettingInheritBase k T1).setSettingInheritBase k T2 =
      (SettingsBaseVirtual.SettingsBase setting_values setting_inherit_base
        parent).setSettingInheritBase k T1) ∧
    (mapFind setting_inherit_base k = none → mapFind setting_values k = none →
      (((SettingsBaseVirtual.SettingsBase setting_values setting_inherit_base
        parent).setSettingInheritBase k T1).setSettingInheritBase k T2).getSettingString k =
        T1.getSettingString k) := by
  have hsame : ((SettingsBaseVirtual.SettingsBase setting_values setting_inherit_base
        parent).setSettingInheritBase k T1).setSettingInheritBase k T2 =
      (SettingsBaseVirtual.SettingsBase setting_values setting_inherit_base
        parent).setSettingInheritBase k T1 := by
    simp only [SettingsBaseVirtual.setSettingInheritBase]
    rw [mapInsert_of_some _ k T2 _ (mapFind_insert_self setting_inherit_base k T1)]
  refine ⟨hsame, ?_⟩
  intro hfirst hlocal
  rw [hsame, SettingsBaseVirtual.setSettingInheritBase,
    SettingsBaseVirtual.getSettingString_base, hlocal, mapFind_insert_self, hfirst]
  rfl

theorem first_override_is_permanent_witness :
    (((SettingsBaseVirtual.SettingsBase [] [] (some storeWithLocal)).setSettingInheritBase "k"
        targetScope).setSettingInheritBase "k" secondTarget).getSettingString "k" =
      targetScope.getSettingString "k" :=
  (first_override_is_permanent [] [] (some storeWithLocal) "k" targetScope secondTarget).2
    rfl rfl

/-! ### Velocity and the binary operators of `AngleRadians` -/

theorem atofDecimal_minus_10 : atofDecimal "-10" = -10 := by
  have h : scanDecimal "-10".data = some (true, 10, 0, 0) := by decide
  simp [atofDecimal, h]

/-- C18: on a key resolving to the text `t`, `get<Velocity>` returns
`max(0, atof(t))`: never negative, the parsed number `x` itself when `0 ≤ x`, and
`0` when `x` is negative; `"-10"` gives `0`. -/
theorem get_Velocity_clamps (atof : String → ℚ) (s : Settings) (key t : String)
    (ht : s.get_string key = .ok t) :
    s.get_Velocity atof key = .ok ⟨max 0 (atof t)⟩ ∧
    (∀ v, s.get_Velocity atof key = .ok v → 0 ≤ v.value) ∧
    (0 ≤ atof t → s.get_Velocity atof key = .ok ⟨atof t⟩) ∧
    (atof t < 0 → s.get_Velocity atof key = .ok ⟨0⟩) ∧
    (t = "-10" → s.get_Velocity atofDecimal key = .ok ⟨0⟩) := by
  have hget : ∀ f : String → ℚ, s.get_Velocity f key = .ok ⟨max 0 (f t)⟩ := by
    intro f
    simp only [Settings.get_Velocity, Settings.get_double, ht]
    norm_num
  refine ⟨hget atof, ?_, ?_, ?_, ?_⟩
  · intro v hv
    rw [hget atof] at hv
    cases hv
    exact le_max_left _ _
  · intro h
    rw [hget atof, max_eq_right h]
  · intro h
    rw [hget atof, max_eq_left h.le]
  · intro h
    subst h
    rw [hget atofDecimal, atofDecimal_minus_10]
    norm_num

theorem get_Velocity_clamps_witness :
    (Settings.mk [("speed", ⟨"-10", none⟩)] none).get_Velocity atofDecimal "speed" = .ok ⟨0⟩ :=
  (get_Velocity_clamps atofDecimal (.mk [("speed", ⟨"-10", none⟩)] none) "speed" "-10"
    rfl).2.2.2.2 rfl

theorem AngleRadians.operator_plus_value (a b : AngleRadians) :
    (a.operator_plus b).value = clock (clock (a.value + b.value) TAU * M_PI / 180) TAU := rfl

theorem AngleRadians.operator_minus_value (a b : AngleRadians) :
    (a.operator_minus b).value = clock (clock (a.value - b.value) TAU * M_PI / 180) TAU := rfl

/-- C19 (what the code does): for `a.value = 1` and `b.value = 1`, `a += b` leaves
`(1 + 1) mod TAU = 2` in `a`, but `a + b` has the value `2 * M_PI / 180`: the
`double` computed by `operator+` goes through the constructor, which multiplies
by `M_PI / 180`; likewise `a - b` for `a.value = 3`, `b.value = 1` has the value
`2 * M_PI / 180` while `a -= b` leaves `2`. -/
theorem binary_operators_rescale :
    (AngleRadians.mk 1).inRange ∧ (AngleRadians.mk 3).inRange ∧
    ((AngleRadians.mk 1).operator_plus_assign (AngleRadians.mk 1)).value = 2 ∧
    ((AngleRadians.mk 1).operator_plus (AngleRadians.mk 1)).value = 2 * M_PI / 180 ∧
    ((AngleRadians.mk 3).operator_minus_assign (AngleRadians.mk 1)).value = 2 ∧
    ((AngleRadians.mk 3).operator_minus (AngleRadians.mk 1)).value = 2 * M_PI / 180 ∧
    (2 : ℚ) * M_PI / 180 ≠ 2 := by
  have h2 : clock (2 : ℚ) TAU = 2 :=
    clock_of_range TAU_pos (by norm_num) (by norm_num [TAU, M_PI])
  have hs : clock ((2 : ℚ) * M_PI / 180) TAU = 2 * M_PI / 180 :=
    clock_of_range TAU_pos (by norm_num [M_PI]) (by norm_num [TAU, M_PI])
  refine ⟨by constructor <;> norm_num [TAU, M_PI], by constructor <;> norm_num [TAU, M_PI],
    ?_, ?_, ?_, ?_, by norm_num [M_PI]⟩
  · show clock ((1 : ℚ) + 1) TAU = 2
    norm_num [h2]
  · rw [AngleRadians.operator_plus_value]
    norm_num [h2, hs]
  · show clock ((3 : ℚ) - 1) TAU = 2
    norm_num [h2]
  · rw [AngleRadians.operator_minus_value]
    norm_num [h2, hs]

/-! ### Serialisation of the local settings -/

theorem foldl_append_tokens (c : String × String → Prop) [DecidablePred c]
    (f : String × String → String) :
    ∀ (l : List (String × String)) (acc : String),
      l.foldl (fun sstream pair => if c pair then sstream ++ f pair else sstream) acc =
        acc ++ concatAll ((l.filter (fun pair => decide (c pair))).map f)
  | [], acc => by simp [concatAll]
  | p :: rest, acc => by
    rw [List.foldl_cons, foldl_append_tokens c f rest]
    by_cases hp : c p
    · simp [hp, concatAll, String.append_assoc]
    · simp [hp]

theorem formatSetting_of_short (key value : String)
    (h : (" -s " ++ key ++ "=\"" ++ value ++ "\"").length ≤ 4095) :
    formatSetting key value = " -s " ++ key ++ "=\"" ++ value ++ "\"" := by
  exact congrArg String.mk
    (List.take_of_length_le (l := (" -s " ++ key ++ "=\"" ++ value ++ "\"").data) h)

theorem getAllLocalSettingsString_eq (Escaped : String → String)
    (setting_values : List (String × String))
    (setting_inherit_base : List (String × SettingsBaseVirtual))
    (parent : Option SettingsBaseVirtual) :
    getAllLocalSettingsString Escaped setting_values setting_inherit_base parent =
      concatAll ((setting_values.filter (fun pair => decide (pair.2 ≠ ""))).map
        (fun pair => formatSetting pair.1 (Escaped pair.2))) := by
  unfold getAllLocalSettingsString
  rw [foldl_append_tokens (fun pair => pair.2 ≠ "")
    (fun pair => formatSetting pair.1 (Escaped pair.2))]
  simp

theorem formatSetting_length (key value : String) :
    (formatSetting key value).length =
      min 4095 (" -s " ++ key ++ "=\"" ++ value ++ "\"").length :=
  List.length_take 4095 (" -s " ++ key ++ "=\"" ++ value ++ "\"").data

theorem settingToken_length (Escaped : String → String) (key value : String) :
    (settingToken Escaped key value).length = 4 + key.length + 2 + (Escaped value).length + 1 := by
  simp only [settingToken, String.length_append]
  rfl

theorem getAllLocalSettingsString_single_length (Escaped : String → String)
    (key value : String) (hv : value ≠ "")
    (setting_inherit_base : List (String × SettingsBaseVirtual))
    (parent : Option SettingsBaseVirtual) :
    (getAllLocalSettingsString Escaped [(key, value)] setting_inherit_base parent).length =
      min 4095 (settingToken Escaped key value).length := by
  rw [getAllLocalSettingsString_eq]
  simp only [List.filter, hv, ne_eq, not_false_eq_true, decide_True, List.map, concatAll,
    String.length_append, formatSetting_length, settingToken]
  rfl

/-- C16 (as stated, refuted): for the single local entry `"k"` with a value of 5000
characters (and the identity as escaping), the output has 4095 characters, while
the token of the claim has 5008: the output is not that token. -/
theorem getAllLocalSettingsString_truncates :
    (getAllLocalSettingsString id [("k", longValue)] [] none).length = 4095 ∧
    (settingToken id "k" longValue).length = 5008 ∧
    getAllLocalSettingsString id [("k", longValue)] [] none ≠ settingToken id "k" longValue := by
  have hlen : longValue.length = 5000 := List.length_replicate 5000 'a'
  have hval : longValue ≠ "" := by
    intro h
    rw [h] at hlen
    exact absurd hlen (by decide)
  have htok : (settingToken id "k" longValue).length = 5008 := by
    rw [settingToken_length, id, hlen]
    rfl
  have hout : (getAllLocalSettingsString id [("k", longValue)] [] none).length = 4095 := by
    rw [getAllLocalSettingsString_single_length id "k" longValue hval, htok]
    rfl
  refine ⟨hout, htok, ?_⟩
  intro h
  rw [h, htok] at hout
  omega

/-- C16 (amended): the output is the concatenation, in the order of the store, of
one token per local entry with a non-empty value, each token being
` -s key="E(value)"` cut to its first 4095 characters (so whole when it has at
most 4095); entries with an empty value add nothing, overrides and parent play
no part, and without a non-empty local entry the output is empty. -/
theorem getAllLocalSettingsString_tokens (Escaped : String → String)
    (setting_values : List (String × String))
    (setting_inherit_base : List (String × SettingsBaseVirtual))
    (parent : Option SettingsBaseVirtual) :
    getAllLocalSettingsString Escaped setting_values setting_inherit_base parent =
      concatAll ((setting_values.filter (fun pair => decide (pair.2 ≠ ""))).map
        (fun pair => String.mk ((settingToken Escaped pair.1 pair.2).data.take 4095))) ∧
    ((∀ pair ∈ setting_values, pair.2 ≠ "" →
        (settingToken Escaped pair.1 pair.2).length ≤ 4095) →
      getAllLocalSettingsString Escaped setting_values setting_inherit_base parent =
        concatAll ((setting_values.filter (fun pair => decide (pair.2 ≠ ""))).map
          (fun pair => settingToken Escaped pair.1 pair.2))) ∧
    (∀ overrides2 parent2,
      getAllLocalSettingsString Escaped setting_values overrides2 parent2 =
        getAllLocalSettingsString Escaped setting_values setting_inherit_base parent) ∧
    ((∀ pair ∈ setting_values, pair.2 = "") →
      getAllLocalSettingsString Escaped setting_values setting_inherit_base parent = "") := by
  refine ⟨getAllLocalSettingsString_eq _ _ _ _, ?_, fun _ _ => rfl, ?_⟩
  · intro hshort
    rw [getAllLocalSettingsString_eq]
    congr 1
    apply List.map_congr_left
    intro pair hpair
    rw [List.mem_filter] at hpair
    exact formatSetting_of_short _ _ (hshort pair hpair.1 (by simpa using hpair.2))
  · intro hempty
    rw [getAllLocalSettingsString_eq]
    have : setting_values.filter (fun pair => decide (pair.2 ≠ "")) = [] := by
      rw [List.filter_eq_nil_iff]
      intro pair hpair
      simp [hempty pair hpair]
    rw [this]
    rfl

theorem getAllLocalSettingsString_tokens_witness :
    getAllLocalSettingsString id [("a", "1"), ("b", ""), ("c", "x y")] [("a", targetScope)]
        (some storeWithLocal) = " -s a=\"1\" -s c=\"x y\"" :=
  ((getAllLocalSettingsString_tokens id [("a", "1"), ("b", ""), ("c", "x y")]
      [("a", targetScope)] (some storeWithLocal)).2.1 (by
        intro pair hpair _
        simp only [List.mem_cons, List.mem_singleton, List.not_mem_nil, or_false] at hpair
        rcases hpair with h | h | h <;> subst h <;> decide)).trans (by decide)

/-! ### The matcher and the language of a regular expression -/

theorem mem_splits (p : Char → Bool) :
    ∀ (s t r : List Char), (t, r) ∈ splits p s ↔ s = t ++ r ∧ ∀ c ∈ t, p c = true
  | [], t, r => by
    simp only [splits, List.mem_singleton, Prod.mk.injEq]
    constructor
    · rintro ⟨rfl, rfl⟩
      simp
    · rintro ⟨h, _⟩
      have h2 := List.append_eq_nil.mp h.symm
      exact h2
  | c :: cs, t, r => by
    have ih := mem_splits p cs
    by_cases hc : p c = true
    · simp only [splits, hc, if_true, List.mem_append, List.mem_map, List.mem_singleton,
        Prod.mk.injEq, Prod.exists]
      constructor
      · rintro (⟨t2, r2, hmem, rfl, rfl⟩ | ⟨rfl, rfl⟩)
        · obtain ⟨h1, h2⟩ := (ih t2 r2).mp hmem
          refine ⟨by rw [h1]; rfl, ?_⟩
          intro x hx
          rcases List.mem_cons.mp hx with rfl | hx
          · exact hc
          · exact h2 x hx
        · simp
      · rintro ⟨h1, h2⟩
        cases t with
        | nil => exact Or.inr ⟨rfl, h1.symm⟩
        | cons x t2 =>
          simp only [List.cons_append, List.cons.injEq] at h1
          obtain ⟨rfl, h1⟩ := h1
          exact Or.inl ⟨t2, r, (ih t2 r).mpr ⟨h1, fun y hy => h2 y (List.mem_cons_of_mem _ hy)⟩,
            rfl, rfl⟩
    · have hc2 : p c = false := by simpa using hc
      simp only [splits, hc2, Bool.false_eq_true, if_false, List.mem_singleton, Prod.mk.injEq]
      constructor
      · rintro ⟨rfl, rfl⟩
        simp
      · rintro ⟨h1, h2⟩
        cases t with
        | nil => exact ⟨rfl, h1.symm⟩
        | cons x t2 =>
          simp only [List.cons_append, List.cons.injEq] at h1
          obtain ⟨rfl, _⟩ := h1
          exact absurd (h2 c (List.mem_cons_self _ _)) hc

theorem mem_matchAll :
    ∀ (atoms : List RegexAtom) (s : List Char) (tokens : List (List Char)) (rest : List Char),
      (tokens, rest) ∈ matchAll atoms s ↔ Decomp atoms s tokens rest
  | [], s, tokens, rest => by
    simp [matchAll, Decomp]
  | .chr c :: atoms, s, tokens, rest => by
    have ih := mem_matchAll atoms
    cases s with
    | nil => simp [matchAll, Decomp]
    | cons x xs =>
      by_cases hx : x = c
      · subst hx
        simp only [matchAll, if_true, Decomp, List.cons.injEq, true_and]
        rw [ih]
        constructor
        · intro h
          exact ⟨xs, rfl, h⟩
        · rintro ⟨ys, rfl, h⟩
          exact h
      · simp only [matchAll, hx, if_false, Decomp, List.not_mem_nil, List.cons.injEq, false_iff]
        rintro ⟨ys, ⟨h, _⟩, _⟩
        exact h.elim
  | .star p :: atoms, s, tokens, rest => by
    have ih := mem_matchAll atoms
    simp only [matchAll, Decomp, List.mem_flatMap, Prod.exists]
    constructor
    · rintro ⟨w, r, hmem, h⟩
      obtain ⟨h1, h2⟩ := (mem_splits p s w r).mp hmem
      exact ⟨w, r, h1, h2, (ih r tokens rest).mp h⟩
    · rintro ⟨w, r, h1, h2, h⟩
      exact ⟨w, r, (mem_splits p s w r).mpr ⟨h1, h2⟩, (ih r tokens rest).mpr h⟩
  | .group p :: atoms, s, tokens, rest => by
    have ih := mem_matchAll atoms
    simp only [matchAll, Decomp, List.mem_flatMap, List.mem_map, Prod.exists, Prod.mk.injEq]
    constructor
    · rintro ⟨t, r, hmem, more, rest2, h, rfl, rfl⟩
      obtain ⟨h1, h2⟩ := (mem_splits p s t r).mp hmem
      exact ⟨t, r, more, h1, h2, rfl, (ih r more rest2).mp h⟩
    · rintro ⟨t, r, more, h1, h2, rfl, h⟩
      exact ⟨t, r, (mem_splits p s t r).mpr ⟨h1, h2⟩, more, rest, (ih r more rest).mpr h,
        rfl, rfl⟩

theorem Decomp_length :
    ∀ (atoms : List RegexAtom) (s : List Char) (tokens : List (List Char)) (rest : List Char),
      Decomp atoms s tokens rest → tokens.length = groupCount atoms
  | [], s, tokens, rest, h => by
    obtain ⟨rfl, _⟩ := h
    rfl
  | .chr c :: atoms, s, tokens, rest, h => by
    obtain ⟨xs, _, h⟩ := h
    exact Decomp_length atoms xs tokens rest h
  | .star p :: atoms, s, tokens, rest, h => by
    obtain ⟨w, r, _, _, h⟩ := h
    exact Decomp_length atoms r tokens rest h
  | .group p :: atoms, s, tokens, rest, h => by
    obtain ⟨t, r, more, _, _, rfl, h⟩ := h
    simp only [List.length_cons, groupCount]
    rw [Decomp_length atoms r more rest h]

theorem regex_match_eq_nil_iff (atoms : List RegexAtom) (s : List Char) :
    regex_match atoms s = [] ↔ ¬ ∃ tokens, Decomp atoms s tokens [] := by
  unfold regex_match
  cases h : (matchAll atoms s).find? (fun m => m.2.isEmpty) with
  | none =>
    simp only [true_iff]
    rintro ⟨tokens, hd⟩
    have hmem := (mem_matchAll atoms s tokens []).mpr hd
    have := List.find?_eq_none.mp h (tokens, []) hmem
    simp at this
  | some m =>
    simp only [List.cons_ne_nil, false_iff, not_not]
    have hmem := List.mem_of_find?_eq_some h
    have hp := List.find?_some h
    obtain ⟨tokens, rest⟩ := m
    simp only [List.isEmpty_iff] at hp
    subst hp
    exact ⟨tokens, (mem_matchAll atoms s tokens []).mp hmem⟩

theorem regex_match_of_ne_nil (atoms : List RegexAtom) (s : List Char)
    (h : regex_match atoms s ≠ []) :
    ∃ tokens, regex_match atoms s = s :: tokens ∧ Decomp atoms s tokens [] ∧
      tokens.length = groupCount atoms := by
  unfold regex_match at h ⊢
  cases hf : (matchAll atoms s).find? (fun m => m.2.isEmpty) with
  | none => simp [hf] at h
  | some m =>
    have hmem := List.mem_of_find?_eq_some hf
    have hp := List.find?_some hf
    obtain ⟨tokens, rest⟩ := m
    simp only [List.isEmpty_iff] at hp
    subst hp
    have hd := (mem_matchAll atoms s tokens []).mp hmem
    exact ⟨tokens, rfl, hd, Decomp_length atoms s tokens [] hd⟩

/-! ### `FMatrix3x3` -/

theorem fillMatrix_entry (strtod : String → ℚ) (sub_matches : List (List Char))
    (g j : Fin 3) :
    (fillMatrix strtod sub_matches).m j g =
      strtod (String.mk (sub_matches.getD (1 + 3 * g.val + j.val) [])) := by
  simp only [fillMatrix, List.foldl, FMatrix3x3.set]
  fin_cases g <;> fin_cases j <;> simp

theorem get_FMatrix3x3_of_no_match (strtod : String → ℚ) (s : Settings) (key text : String)
    (ht : s.get_string key = .ok text)
    (h : text = "" ∨ regex_match point_matrix_regex text.data = []) :
    s.get_FMatrix3x3 strtod key = .ok FMatrix3x3.identity := by
  simp only [Settings.get_FMatrix3x3, ht]
  rcases h with h | h
  · simp [h]
  · simp [h]

theorem point_matrix_regex_not_empty :
    ¬ ∃ tokens, Decomp point_matrix_regex ([] : List Char) tokens [] :=
  (regex_match_eq_nil_iff point_matrix_regex []).mp (by decide)

/-- C13: when the text of the key is empty, or is not, as a whole, in the language
of `point_matrix_regex` (`[[f,f,f],[f,f,f],[f,f,f]]` with `f` a run of characters
other than `,`, `]` and space, and white space allowed around every bracket,
comma and `f`), `get<FMatrix3x3>` returns the identity matrix. -/
theorem get_FMatrix3x3_identity_on_deviation (strtod : String → ℚ) (s : Settings)
    (key text : String) (ht : s.get_string key = .ok text)
    (hdev : text = "" ∨ ¬ ∃ tokens, Decomp point_matrix_regex text.data tokens []) :
    s.get_FMatrix3x3 strtod key = .ok FMatrix3x3.identity := by
  refine get_FMatrix3x3_of_no_match strtod s key text ht ?_
  rcases hdev with h | h
  · exact Or.inl h
  · exact Or.inr ((regex_match_eq_nil_iff point_matrix_regex text.data).mpr h)

theorem get_FMatrix3x3_identity_on_deviation_witness :
    sampleMatrices.get_FMatrix3x3 atofDecimal "garbage" = .ok FMatrix3x3.identity ∧
    sampleMatrices.get_FMatrix3x3 atofDecimal "empty" = .ok FMatrix3x3.identity ∧
    sampleMatrices.get_FMatrix3x3 atofDecimal "tworows" = .ok FMatrix3x3.identity ∧
    sampleMatrices.get_FMatrix3x3 atofDecimal "trailing" = .ok FMatrix3x3.identity :=
  ⟨get_FMatrix3x3_identity_on_deviation atofDecimal sampleMatrices "garbage" "garbage" rfl
      (Or.inr ((regex_match_eq_nil_iff _ _).mp (by decide))),
   get_FMatrix3x3_identity_on_deviation atofDecimal sampleMatrices "empty" "" rfl (Or.inl rfl),
   get_FMatrix3x3_identity_on_deviation atofDecimal sampleMatrices "tworows"
      "[[1,2,3],[4,5,6]]" rfl (Or.inr ((regex_match_eq_nil_iff _ _).mp (by decide))),
   get_FMatrix3x3_identity_on_deviation atofDecimal sampleMatrices "trailing"
      "[[1,0,0],[0,1,0],[0,0,1]] x" rfl
      (Or.inr ((regex_match_eq_nil_iff _ _).mp (by decide)))⟩

theorem Decomp_drop_space :
    ∀ (atoms : List RegexAtom), Tidy atoms → ∀ (r : List Char) (tokens : List (List Char)),
      Decomp atoms (' ' :: r) tokens [] → Decomp atoms r tokens []
  | [], _, r, tokens, h => by
    obtain ⟨_, h⟩ := h
    cases h
  | .chr c :: atoms, ht, r, tokens, h => by
    obtain ⟨xs, hs, _⟩ := h
    simp only [List.cons.injEq] at hs
    exact absurd hs.1.symm ht.1
  | .star p :: atoms, ht, r, tokens, h => by
    obtain ⟨w, r2, hs, hw, hd⟩ := h
    cases w with
    | nil =>
      simp only [List.nil_append] at hs
      subst hs
      exact ⟨[], r, rfl, by simp, Decomp_drop_space atoms ht.2 r tokens hd⟩
    | cons x w2 =>
      simp only [List.cons_append, List.cons.injEq] at hs
      exact ⟨w2, r2, hs.2, fun c hc => hw c (List.mem_cons_of_mem _ hc), hd⟩
  | .group p :: [], ht, _, _, _ => ht.elim
  | .group p :: .chr _ :: _, ht, _, _, _ => ht.elim
  | .group p :: .group _ :: _, ht, _, _, _ => ht.elim
  | .group p :: .star q :: [], ht, _, _, _ => ht.elim
  | .group p :: .star q :: .star _ :: _, ht, _, _, _ => ht.elim
  | .group p :: .star q :: .group _ :: _, ht, _, _, _ => ht.elim
  | .group p :: .star q :: .chr d :: atoms, ht, r, tokens, h => by
    obtain ⟨hp, _, _, htail⟩ := ht
    obtain ⟨t, r2, more, hs, htok, rfl, hd⟩ := h
    cases t with
    | nil =>
      simp only [List.nil_append] at hs
      subst hs
      exact ⟨[], r, more, rfl, by simp, rfl,
        Decomp_drop_space (.star q :: .chr d :: atoms) htail r more hd⟩
    | cons x t2 =>
      simp only [List.cons_append, List.cons.injEq] at hs
      have hx := htok x (List.mem_cons_self _ _)
      rw [← hs.1, hp] at hx
      cases hx

theorem Decomp_drop_spaces (atoms : List RegexAtom) (ht : Tidy atoms) :
    ∀ (a r : List Char) (tokens : List (List Char)), (∀ c ∈ a, c = ' ') →
      Decomp atoms (a ++ r) tokens [] → Decomp atoms r tokens []
  | [], r, tokens, _, h => h
  | x :: a, r, tokens, ha, h => by
    have hx : x = ' ' := ha x (List.mem_cons_self _ _)
    subst hx
    exact Decomp_drop_spaces atoms ht a r tokens (fun c hc => ha c (List.mem_cons_of_mem _ hc))
      (Decomp_drop_space atoms ht (a ++ r) tokens h)

theorem spacesOnly_of_append_right {a b : List Char} (h : spacesOnly (a ++ b)) : spacesOnly b :=
  fun c hc => h c (List.mem_append_right _ hc)

theorem Decomp_tokens_unique :
    ∀ (atoms : List RegexAtom), Tidy atoms →
      ∀ (s : List Char) (tokens tokens2 : List (List Char)), spacesOnly s →
        Decomp atoms s tokens [] → Decomp atoms s tokens2 [] → tokens = tokens2
  | [], _, s, tokens, tokens2, _, h1, h2 => by
    rw [h1.1, h2.1]
  | .chr c :: atoms, ht, s, tokens, tokens2, hs, h1, h2 => by
    obtain ⟨xs, rfl, h1⟩ := h1
    obtain ⟨ys, hy, h2⟩ := h2
    simp only [List.cons.injEq, true_and] at hy
    subst hy
    exact Decomp_tokens_unique atoms ht.2 xs tokens tokens2
      (fun x hx => hs x (List.mem_cons_of_mem _ hx)) h1 h2
  | .star p :: atoms, ht, s, tokens, tokens2, hs, h1, h2 => by
    obtain ⟨w, r, rfl, hw, h1⟩ := h1
    obtain ⟨w2, r2, hs2, hw2, h2⟩ := h2
    have hsp : ∀ (u v : List Char), (∀ c ∈ u, p c = true) → (∀ c ∈ (u ++ v), c ∈ w ++ r) →
        ∀ a, (∃ b, u = b ++ a) → ∀ c ∈ a, c = ' ' := by
      intro u v hu hsub a hb c hc
      obtain ⟨b, rfl⟩ := hb
      have hcu : c ∈ b ++ a := List.mem_append_right _ hc
      exact hs c (hsub c (List.mem_append_left _ hcu)) (ht.1 c (hu c hcu))
    rcases List.append_eq_append_iff.mp hs2 with ⟨a, hwa, hra⟩ | ⟨a, hwa, hra⟩
    · -- `w2 = w ++ a`, `r = a ++ r2`
      have ha : ∀ c ∈ a, c = ' ' :=
        hsp w2 r2 hw2 (fun c hc => by rw [hs2]; exact hc) a ⟨w, hwa⟩
      rw [hra] at h1
      have h1b := Decomp_drop_spaces atoms ht.2 a r2 tokens ha h1
      exact Decomp_tokens_unique atoms ht.2 r2 tokens tokens2
        (fun x hx => hs x (by rw [hs2]; exact List.mem_append_right _ hx)) h1b h2
    · -- `w = w2 ++ a`, `r2 = a ++ r`
      have ha : ∀ c ∈ a, c = ' ' :=
        hsp w r hw (fun c hc => hc) a ⟨w2, hwa⟩
      rw [hra] at h2
      have h2b := Decomp_drop_spaces atoms ht.2 a r tokens2 ha h2
      exact Decomp_tokens_unique atoms ht.2 r tokens tokens2
        (fun x hx => hs x (List.mem_append_right _ hx)) h1 h2b
  | .group p :: [], ht, _, _, _, _, _, _ => ht.elim
  | .group p :: .chr _ :: _, ht, _, _, _, _, _, _ => ht.elim
  | .group p :: .group _ :: _, ht, _, _, _, _, _, _ => ht.elim
  | .group p :: .star q :: [], ht, _, _, _, _, _, _ => ht.elim
  | .group p :: .star q :: .star _ :: _, ht, _, _, _, _, _, _ => ht.elim
  | .group p :: .star q :: .group _ :: _, ht, _, _, _, _, _, _ => ht.elim
  | .group p :: .star q :: .chr d :: atoms, ht, s, tokens, tokens2, hs, h1, h2 => by
    obtain ⟨hp, hpd, hd, htail⟩ := ht
    obtain ⟨t, r, more, rfl, htok, rfl, h1⟩ := h1
    obtain ⟨t2, r2, more2, hs2, htok2, rfl, h2⟩ := h2
    -- a character of a group that the other decomposition leaves to the rest
    have hreject : ∀ (x : Char) (u : List Char) (m : List (List Char)), p x = true →
        x ∈ t ++ r → ¬ Decomp (.star q :: .chr d :: atoms) (x :: u) m [] := by
      intro x u m hx hmem hdec
      obtain ⟨w, r3, hw3, hwq, hrest⟩ := hdec
      cases w with
      | nil =>
        simp only [List.nil_append] at hw3
        subst hw3
        obtain ⟨xs, hxs, _⟩ := hrest
        simp only [List.cons.injEq] at hxs
        rw [hxs.1, hpd] at hx
        cases hx
      | cons y w4 =>
        simp only [List.cons_append, List.cons.injEq] at hw3
        have hy := htail.1 y (hwq y (List.mem_cons_self _ _))
        rw [← hw3.1] at hy
        have := hs x hmem hy
        rw [this, hp] at hx
        cases hx
    have hteq : t = t2 := by
      rcases List.append_eq_append_iff.mp hs2 with ⟨a, hta, hra⟩ | ⟨a, hta, hra⟩
      · cases a with
        | nil => simpa using hta.symm
        | cons x a2 =>
          exfalso
          rw [hra] at h1
          refine hreject x (a2 ++ r2) more (htok2 x ?_) ?_ h1
          · rw [hta]
            exact List.mem_append_right _ (List.mem_cons_self _ _)
          · rw [hs2, hta]
            exact List.mem_append_left _ (List.mem_append_right _ (List.mem_cons_self _ _))
      · cases a with
        | nil => simpa using hta
        | cons x a2 =>
          exfalso
          rw [hra] at h2
          refine hreject x (a2 ++ r) more2 (htok x ?_) ?_ h2
          · rw [hta]
            exact List.mem_append_right _ (List.mem_cons_self _ _)
          · rw [hta]
            exact List.mem_append_left _ (List.mem_append_right _ (List.mem_cons_self _ _))
    subst hteq
    have hreq : r = r2 := List.append_cancel_left hs2
    subst hreq
    rw [Decomp_tokens_unique (.star q :: .chr d :: atoms) htail r more more2
      (spacesOnly_of_append_right hs) h1 h2]

theorem point_matrix_regex_tidy : Tidy point_matrix_regex := by
  simp [point_matrix_regex, row, num, Tidy]
  decide

/-- C14: when the text of the key is in the language of `point_matrix_regex`, the
nine sub-matches `t` of `std::regex_match` are the tokens of a decomposition of
the text along the grammar, and the result `m` has
`m[j][g] = strtod(t(g, j))` for the `j`-th token of the `g`-th bracketed group:
group `g` is row `g` when `m` is read as `m[column][row]`. When the only white
space of the text is the space, the tokens of every decomposition along the
grammar are these nine. -/
theorem get_FMatrix3x3_rows (strtod : String → ℚ) (s : Settings) (key text : String)
    (ht : s.get_string key = .ok text)
    (hmatch : ∃ tokens, Decomp point_matrix_regex text.data tokens []) :
    Decomp point_matrix_regex text.data (regex_match point_matrix_regex text.data).tail [] ∧
    (regex_match point_matrix_regex text.data).tail.length = 9 ∧
    ∃ M, s.get_FMatrix3x3 strtod key = .ok M ∧
      (∀ g j : Fin 3, M.m j g =
        strtod (String.mk
          ((regex_match point_matrix_regex text.data).tail.getD (3 * g.val + j.val) []))) ∧
      (spacesOnly text.data → ∀ tokens, Decomp point_matrix_regex text.data tokens [] →
        ∀ g j : Fin 3, M.m j g = strtod (String.mk (tokens.getD (3 * g.val + j.val) []))) := by
  have hne : regex_match point_matrix_regex text.data ≠ [] := fun h =>
    (regex_match_eq_nil_iff point_matrix_regex text.data).mp h hmatch
  obtain ⟨tokens, hsub, hdecomp, hlen⟩ := regex_match_of_ne_nil _ _ hne
  have hnine : tokens.length = 9 := hlen
  have htext : text ≠ "" := by
    intro h
    subst h
    exact point_matrix_regex_not_empty hmatch
  rw [hsub]
  have hentry : ∀ g j : Fin 3, (fillMatrix strtod (text.data :: tokens)).m j g =
      strtod (String.mk (tokens.getD (3 * g.val + j.val) [])) := by
    intro g j
    rw [fillMatrix_entry]
    have : 1 + 3 * g.val + j.val = (3 * g.val + j.val) + 1 := by omega
    rw [this]
    rfl
  refine ⟨hdecomp, hnine, fillMatrix strtod (text.data :: tokens), ?_, hentry, ?_⟩
  · simp [Settings.get_FMatrix3x3, ht, htext, hsub, hnine]
  · intro hspaces tokens2 hdecomp2 g j
    rw [Decomp_tokens_unique point_matrix_regex point_matrix_regex_tidy text.data tokens2 tokens
      hspaces hdecomp2 hdecomp]
    exact hentry g j

theorem atofDecimal_of_scan (s : String) (m : Nat)
    (h : scanDecimal s.data = some (false, m, 0, 0)) : atofDecimal s = m := by
  simp [atofDecimal, h]

theorem atofDecimal_of_no_scan (s : String) (h : scanDecimal s.data = none) :
    atofDecimal s = 0 := by
  simp [atofDecimal, h]

theorem get_FMatrix3x3_rows_witness :
    (∃ M, sampleMatrices.get_FMatrix3x3 atofDecimal "loose" = .ok M ∧
      (M.m 0 0, M.m 1 0, M.m 2 0) = (0, 0, 3)) ∧
    (∃ M, sampleMatrices.get_FMatrix3x3 atofDecimal "spaced" = .ok M ∧
      (M.m 0 0, M.m 1 0, M.m 2 0) = (1, 2, 3) ∧ (M.m 0 1, M.m 1 1, M.m 2 1) = (4, 5, 6) ∧
      (M.m 0 2, M.m 1 2, M.m 2 2) = (7, 8, 9)) ∧
    (∃ M, sampleMatrices.get_FMatrix3x3 atofDecimal "unit" = .ok M ∧
      (M.m 0 0, M.m 1 0, M.m 2 0) = (1, 0, 0) ∧ (M.m 0 1, M.m 1 1, M.m 2 1) = (0, 1, 0) ∧
      (M.m 0 2, M.m 1 2, M.m 2 2) = (0, 0, 1)) := by
  refine ⟨?_, ?_, ?_⟩
  · have htok : (regex_match point_matrix_regex "[[x,,3],[4,5,6],[7,8,9]]".data).tail =
        [['x'], [], ['3'], ['4'], ['5'], ['6'], ['7'], ['8'], ['9']] := by decide
    obtain ⟨_, _, M, hM, hent, _⟩ := get_FMatrix3x3_rows atofDecimal sampleMatrices "loose"
      "[[x,,3],[4,5,6],[7,8,9]]" rfl
      (not_not.mp (mt (regex_match_eq_nil_iff _ _).mpr (by decide)))
    rw [htok] at hent
    refine ⟨M, hM, ?_⟩
    rw [hent 0 0, hent 0 1, hent 0 2]
    exact congrArg₂ Prod.mk (atofDecimal_of_no_scan _ (by decide))
      (congrArg₂ Prod.mk (atofDecimal_of_no_scan _ (by decide))
        (atofDecimal_of_scan _ 3 (by decide)))
  · have htok : (regex_match point_matrix_regex "[[1, 2 ,3],[4,5,6],[7,8,9]]".data).tail =
        [['1'], ['2'], ['3'], ['4'], ['5'], ['6'], ['7'], ['8'], ['9']] := by decide
    obtain ⟨_, _, M, hM, hent, _⟩ := get_FMatrix3x3_rows atofDecimal sampleMatrices "spaced"
      "[[1, 2 ,3],[4,5,6],[7,8,9]]" rfl
      (not_not.mp (mt (regex_match_eq_nil_iff _ _).mpr (by decide)))
    rw [htok] at hent
    refine ⟨M, hM, ?_, ?_, ?_⟩
    · rw [hent 0 0, hent 0 1, hent 0 2]
      exact congrArg₂ Prod.mk (atofDecimal_of_scan _ 1 (by decide))
        (congrArg₂ Prod.mk (atofDecimal_of_scan _ 2 (by decide))
          (atofDecimal_of_scan _ 3 (by decide)))
    · rw [hent 1 0, hent 1 1, hent 1 2]
      exact congrArg₂ Prod.mk (atofDecimal_of_scan _ 4 (by decide))
        (congrArg₂ Prod.mk (atofDecimal_of_scan _ 5 (by decide))
          (atofDecimal_of_scan _ 6 (by decide)))
    · rw [hent 2 0, hent 2 1, hent 2 2]
      exact congrArg₂ Prod.mk (atofDecimal_of_scan _ 7 (by decide))
        (congrArg₂ Prod.mk (atofDecimal_of_scan _ 8 (by decide))
          (atofDecimal_of_scan _ 9 (by decide)))
  · have htok : (regex_match point_matrix_regex "[[1,0,0],[0,1,0],[0,0,1]]".data).tail =
        [['1'], ['0'], ['0'], ['0'], ['1'], ['0'], ['0'], ['0'], ['1']] := by decide
    obtain ⟨_, _, M, hM, hent, _⟩ := get_FMatrix3x3_rows atofDecimal sampleMatrices "unit"
      "[[1,0,0],[0,1,0],[0,0,1]]" rfl
      (not_not.mp (mt (regex_match_eq_nil_iff _ _).mpr (by decide)))
    rw [htok] at hent
    refine ⟨M, hM, ?_, ?_, ?_⟩
    · rw [hent 0 0, hent 0 1, hent 0 2]
      exact congrArg₂ Prod.mk (atofDecimal_of_scan _ 1 (by decide))
        (congrArg₂ Prod.mk (atofDecimal_of_scan _ 0 (by decide))
          (atofDecimal_of_scan _ 0 (by decide)))
    · rw [hent 1 0, hent 1 1, hent 1 2]
      exact congrArg₂ Prod.mk (atofDecimal_of_scan _ 0 (by decide))
        (congrArg₂ Prod.mk (atofDecimal_of_scan _ 1 (by decide))
          (atofDecimal_of_scan _ 0 (by decide)))
    · rw [hent 2 0, hent 2 1, hent 2 2]
      exact congrArg₂ Prod.mk (atofDecimal_of_scan _ 0 (by decide))
        (congrArg₂ Prod.mk (atofDecimal_of_scan _ 0 (by decide))
          (atofDecimal_of_scan _ 1 (by decide)))

/-! ### `FlowTempGraph` -/

theorem flatMap_splits_det {β : Type} (p : Char → Bool) :
    ∀ (s : List Char) (f : List Char × List Char → List β),
      (∀ t x r, p x = true → f (t, x :: r) = []) →
      (splits p s).flatMap f = f (s.takeWhile p, s.dropWhile p)
  | [], f, _ => by simp [splits]
  | c :: cs, f, hf => by
    cases hc : p c with
    | true =>
      have ih := flatMap_splits_det p cs (fun r => f (c :: r.1, r.2))
        (fun t x r hx => hf (c :: t) x r hx)
      simp only [splits, hc, if_true, List.flatMap_append, List.flatMap_map, List.flatMap_cons,
        List.flatMap_nil, List.append_nil, hf [] c cs hc, List.takeWhile_cons,
        List.dropWhile_cons]
      exact ih
    | false =>
      simp [splits, hc, List.takeWhile_cons, List.dropWhile_cons]

theorem matchAll_chr_cons (c : Char) (atoms : List RegexAtom) (xs : List Char) :
    matchAll (.chr c :: atoms) (c :: xs) = matchAll atoms xs := by
  simp [matchAll]

theorem matchAll_chr_ne (c x : Char) (atoms : List RegexAtom) (xs : List Char) (h : x ≠ c) :
    matchAll (.chr c :: atoms) (x :: xs) = [] := by
  simp [matchAll, h]

theorem matchAll_group_det (p : Char → Bool) (atoms : List RegexAtom) (s : List Char)
    (h : ∀ x r, p x = true → matchAll atoms (x :: r) = []) :
    matchAll (.group p :: atoms) s =
      (matchAll atoms (s.dropWhile p)).map (fun m => (s.takeWhile p :: m.1, m.2)) := by
  rw [matchAll]
  exact flatMap_splits_det p s _ (fun t x r hx => by simp [h x r hx])

theorem matchAll_flowTemp_pair (a b rest : List Char)
    (ha : ∀ c ∈ a, c ≠ ',' ∧ c ≠ '[') (hb : ∀ c ∈ b, c ≠ ',' ∧ c ≠ ']') :
    matchAll flowTempRegex ('[' :: (a ++ ',' :: (b ++ ']' :: rest))) = [([a, b], rest)] := by
  have h1 := @takeWhile_append_stop (fun c => decide (c ≠ ',') && decide (c ≠ '[')) a
    (',' :: (b ++ ']' :: rest)) (fun c hc => by simp [ha c hc]) (by simp)
  have h2 := @takeWhile_append_stop (fun c => decide (c ≠ ',') && decide (c ≠ ']')) b
    (']' :: rest) (fun c hc => by simp [hb c hc]) (by simp)
  unfold flowTempRegex
  rw [matchAll_chr_cons, matchAll_group_det]
  · rw [h1.1, h1.2, matchAll_chr_cons, matchAll_group_det]
    · rw [h2.1, h2.2, matchAll_chr_cons]
      simp [matchAll]
    · intro x r hx
      refine matchAll_chr_ne _ _ _ _ ?_
      intro hEq
      subst hEq
      simp at hx
  · intro x r hx
    refine matchAll_chr_ne _ _ _ _ ?_
    intro hEq
    subst hEq
    simp at hx

theorem matchAll_flowTemp_of_ne_open (c : Char) (cs : List Char) (h : c ≠ '[') :
    matchAll flowTempRegex (c :: cs) = [] :=
  matchAll_chr_ne _ _ _ _ h

theorem regex_search_flowTemp_no_open :
    ∀ sep : List Char, (∀ c ∈ sep, c ≠ '[') → regex_search flowTempRegex sep = none
  | [], _ => by simp [regex_search, flowTempRegex, matchAll]
  | c :: cs, h => by
    rw [regex_search, matchAll_flowTemp_of_ne_open c cs (h c (List.mem_cons_self _ _))]
    exact regex_search_flowTemp_no_open cs (fun x hx => h x (List.mem_cons_of_mem _ hx))

theorem regex_search_flowTemp_skip (t : List Char) :
    ∀ sep : List Char, (∀ c ∈ sep, c ≠ '[') →
      regex_search flowTempRegex (sep ++ t) = regex_search flowTempRegex t
  | [], _ => rfl
  | c :: cs, h => by
    rw [List.cons_append, regex_search,
      matchAll_flowTemp_of_ne_open c _ (h c (List.mem_cons_self _ _))]
    exact regex_search_flowTemp_skip t cs (fun x hx => h x (List.mem_cons_of_mem _ hx))

theorem regex_search_flowTemp_pair (a b rest : List Char)
    (ha : ∀ c ∈ a, c ≠ ',' ∧ c ≠ '[') (hb : ∀ c ∈ b, c ≠ ',' ∧ c ≠ ']') :
    ∃ whole, regex_search flowTempRegex ('[' :: (a ++ ',' :: (b ++ ']' :: rest))) =
      some ([whole, a, b], rest) := by
  have h := matchAll_flowTemp_pair a b rest ha hb
  rw [regex_search, h]
  exact ⟨_, rfl⟩

theorem regexMatches_fuel (atoms : List RegexAtom) :
    ∀ (fuel1 fuel2 : Nat) (s : List Char), s.length < fuel1 → s.length < fuel2 →
      regexMatches atoms fuel1 s = regexMatches atoms fuel2 s
  | 0, _, _, h1, _ => absurd h1 (Nat.not_lt_zero _)
  | _ + 1, 0, _, _, h2 => absurd h2 (Nat.not_lt_zero _)
  | f1 + 1, f2 + 1, s, h1, h2 => by
    rw [regexMatches, regexMatches]
    cases regex_search atoms s with
    | none => rfl
    | some found =>
      obtain ⟨sub_matches, rest⟩ := found
      simp only
      by_cases hlt : rest.length < s.length
      · rw [if_pos hlt, if_pos hlt,
          regexMatches_fuel atoms f1 f2 rest (by omega) (by omega)]
      · rw [if_neg hlt, if_neg hlt]

theorem flowTempLoop_graphText (stod : String → Except StdException ℚ) :
    ∀ (pairs : List GraphPair) (sep0 : List Char) (fuel : Nat) (result : FlowTempGraph),
      bracketFree sep0 →
      (∀ p ∈ pairs, numeralText p.first ∧ numeralText p.second ∧ bracketFree p.sep ∧
        stod (String.mk p.first) = .ok p.x ∧ stod (String.mk p.second) = .ok p.y) →
      (graphText sep0 pairs).length ≤ fuel →
      flowTempLoop stod (regexMatches flowTempRegex fuel (graphText sep0 pairs)) result =
        .ok ⟨result.data ++ pairs.map (fun p => (p.x, p.y))⟩
  | [], sep0, fuel, result, hsep, _, _ => by
    have hnone := regex_search_flowTemp_no_open sep0 (fun c hc => (hsep c hc).1)
    cases fuel with
    | zero => simp [graphText, regexMatches, flowTempLoop]
    | succ f => simp [graphText, regexMatches, hnone, flowTempLoop]
  | p :: rest, sep0, fuel, result, hsep, hpairs, hfuel => by
    obtain ⟨hfirst, hsecond, hpsep, hx, hy⟩ := hpairs p (List.mem_cons_self _ _)
    obtain ⟨whole, hsearch⟩ := regex_search_flowTemp_pair p.first p.second
      (graphText p.sep rest) (fun c hc => ⟨(hfirst c hc).1, (hfirst c hc).2.1⟩)
      (fun c hc => ⟨(hsecond c hc).1, (hsecond c hc).2.2⟩)
    have hlen : (graphText sep0 (p :: rest)).length =
        sep0.length + (p.first.length + (p.second.length + (graphText p.sep rest).length + 1)
          + 1) + 1 := by
      simp only [graphText, List.length_append, List.length_cons]
      omega
    cases fuel with
    | zero => omega
    | succ f =>
      have hrest : (graphText p.sep rest).length < (graphText sep0 (p :: rest)).length := by
        omega
      rw [regexMatches]
      have hs : regex_search flowTempRegex (graphText sep0 (p :: rest)) =
          some ([whole, p.first, p.second], graphText p.sep rest) := by
        rw [graphText, regex_search_flowTemp_skip _ sep0 (fun c hc => (hsep c hc).1)]
        exact hsearch
      rw [hs]
      simp only [hrest, if_true, flowTempLoop, List.getD_cons_succ, List.getD_cons_zero, hx, hy]
      rw [flowTempLoop_graphText stod rest p.sep f _ hpsep
        (fun q hq => hpairs q (List.mem_cons_of_mem _ hq)) (by omega)]
      simp

/-- C11: when the text of the key is a sequence of bracketed pairs
`[first,second]`, before, between and after which stands text without brackets,
and `std::stod` converts the numerals `first` and `second` of every pair to the
numbers `x` and `y`, `get<FlowTempGraph>` returns exactly the points `(x, y)` of
the pairs, in the order of the text; no pair gives the empty sequence. -/
theorem get_FlowTempGraph_keeps_pairs (stod : String → Except StdException ℚ) (s : Settings)
    (key : String) (sep0 : List Char) (pairs : List GraphPair)
    (ht : s.get_string key = .ok (String.mk (graphText sep0 pairs)))
    (hsep : bracketFree sep0)
    (hpairs : ∀ p ∈ pairs, numeralText p.first ∧ numeralText p.second ∧ bracketFree p.sep ∧
      stod (String.mk p.first) = .ok p.x ∧ stod (String.mk p.second) = .ok p.y) :
    s.get_FlowTempGraph stod key = .ok ⟨pairs.map (fun p => (p.x, p.y))⟩ := by
  simp only [Settings.get_FlowTempGraph, ht]
  by_cases hempty : String.mk (graphText sep0 pairs) = ""
  · rw [if_pos hempty]
    cases pairs with
    | nil => rfl
    | cons p rest =>
      have := congrArg String.length hempty
      simp [graphText] at this
  · rw [if_neg hempty]
    rw [flowTempLoop_graphText stod pairs sep0 _ ⟨[]⟩ hsep hpairs (Nat.le_succ _)]
    simp

theorem stodDecimal_of_scan (s : String) (m : Nat)
    (h : scanDecimal s.data = some (false, m, 0, 0)) (hm : (m : ℚ) < 2 ^ 1024) :
    stodDecimal s = .ok (m : ℚ) := by
  have hlt : ¬ (2 : ℚ) ^ 1024 ≤ (m : ℚ) := not_le.mpr hm
  simp [stodDecimal, h, hlt]

theorem stodDecimal_of_no_scan (s : String) (h : scanDecimal s.data = none) :
    stodDecimal s = .error .invalid_argument := by
  simp [stodDecimal, h]

theorem stodDecimal_1e999 : stodDecimal "1e999" = .error .out_of_range := by
  have h : scanDecimal "1e999".data = some (false, 1, 0, 999) := by decide
  have hbig : (2 : ℚ) ^ 1024 ≤ ((1 : Nat) : ℚ) * 10 ^ ((999 : Int) - ((0 : Nat) : Int)) := by
    norm_num
  simp only [stodDecimal, h]
  rw [if_pos hbig]

theorem get_FlowTempGraph_keeps_pairs_witness :
    sampleGraphs.get_FlowTempGraph stodDecimal "two" = .ok ⟨[(0, 200), (10, 210)]⟩ ∧
    sampleGraphs.get_FlowTempGraph stodDecimal "empty" = .ok ⟨[]⟩ :=
  ⟨get_FlowTempGraph_keeps_pairs stodDecimal sampleGraphs "two" []
      [⟨['0'], ['2', '0', '0'], 0, 200, [',']⟩, ⟨['1', '0'], ['2', '1', '0'], 10, 210, []⟩]
      rfl (by simp [bracketFree])
      (by
        intro p hp
        simp only [List.mem_cons, List.mem_singleton, List.not_mem_nil, or_false] at hp
        rcases hp with h | h <;> subst h
        · exact ⟨by simp [numeralText], by simp [numeralText], by simp [bracketFree],
            (stodDecimal_of_scan _ 0 (by decide) (by norm_num)).trans (by norm_num),
            (stodDecimal_of_scan _ 200 (by decide) (by norm_num)).trans (by norm_num)⟩
        · exact ⟨by simp [numeralText], by simp [numeralText], by simp [bracketFree],
            (stodDecimal_of_scan _ 10 (by decide) (by norm_num)).trans (by norm_num),
            (stodDecimal_of_scan _ 210 (by decide) (by norm_num)).trans (by norm_num)⟩),
   get_FlowTempGraph_keeps_pairs stodDecimal sampleGraphs "empty" [] [] rfl
      (by simp [bracketFree]) (by simp)⟩

theorem flowTempLoop_skips (stod : String → Except StdException ℚ)
    (hrange : ∀ t, stod t ≠ .error .out_of_range) :
    ∀ (found : List (List (List Char))) (result : FlowTempGraph),
      flowTempLoop stod found result =
        .ok ⟨result.data ++ found.filterMap (fun sub_matches =>
          match stod (String.mk (sub_matches.getD 1 [])),
            stod (String.mk (sub_matches.getD 2 [])) with
          | .ok first, .ok second => some (first, second)
          | _, _ => none)⟩
  | [], result => by simp [flowTempLoop]
  | sub_matches :: rest, result => by
    rw [flowTempLoop, List.filterMap_cons]
    cases h1 : stod (String.mk (sub_matches.getD 1 [])) with
    | error e =>
      cases e with
      | invalid_argument => simp [flowTempLoop_skips stod hrange rest]
      | out_of_range => exact absurd h1 (hrange _)
    | ok first =>
      cases h2 : stod (String.mk (sub_matches.getD 2 [])) with
      | error e =>
        cases e with
        | invalid_argument => simp [flowTempLoop_skips stod hrange rest]
        | out_of_range => exact absurd h2 (hrange _)
      | ok second => simp [flowTempLoop_skips stod hrange rest]

/-- C12 (what the code does): a pair whose numeral cannot be converted at all is
left out and the scan goes on (`"[abc,5]"` gives the empty sequence,
`"[abc,5],[1,2]"` gives `[(1,2)]`), but a pair whose numeral is outside the
range of `double` ends the call: `std::stod` throws `std::out_of_range`, which
the handler for `std::invalid_argument` does not catch (`"[1e999,5]"`, and
`"[abc,5],[1e999,5],[1,2]"` where the later pair `[1,2]` is lost as well). -/
theorem get_FlowTempGraph_range_error_escapes :
    sampleGraphs.get_FlowTempGraph stodDecimal "bad" = .ok ⟨[]⟩ ∧
    sampleGraphs.get_FlowTempGraph stodDecimal "badgood" = .ok ⟨[(1, 2)]⟩ ∧
    sampleGraphs.get_FlowTempGraph stodDecimal "huge" = .error (.thrown .out_of_range) ∧
    sampleGraphs.get_FlowTempGraph stodDecimal "badhuge" = .error (.thrown .out_of_range) := by
  have habc : stodDecimal (String.mk ['a', 'b', 'c']) = .error .invalid_argument :=
    stodDecimal_of_no_scan _ (by decide)
  have h1 : stodDecimal (String.mk ['1']) = .ok 1 :=
    (stodDecimal_of_scan _ 1 (by decide) (by norm_num)).trans (by norm_num)
  have h2 : stodDecimal (String.mk ['2']) = .ok 2 :=
    (stodDecimal_of_scan _ 2 (by decide) (by norm_num)).trans (by norm_num)
  have hhuge : stodDecimal (String.mk ['1', 'e', '9', '9', '9']) = .error .out_of_range :=
    stodDecimal_1e999
  have hbad : regexMatches flowTempRegex ("[abc,5]".data.length + 1) "[abc,5]".data =
      [["[abc,5]".data, ['a', 'b', 'c'], ['5']]] := by decide
  have hbadgood : regexMatches flowTempRegex ("[abc,5],[1,2]".data.length + 1) "[abc,5],[1,2]".data =
      [["[abc,5]".data, ['a', 'b', 'c'], ['5']], ["[1,2]".data, ['1'], ['2']]] := by decide
  have hhugem : regexMatches flowTempRegex ("[1e999,5]".data.length + 1) "[1e999,5]".data =
      [["[1e999,5]".data, ['1', 'e', '9', '9', '9'], ['5']]] := by decide
  have hbadhuge : regexMatches flowTempRegex
      ("[abc,5],[1e999,5],[1,2]".data.length + 1) "[abc,5],[1e999,5],[1,2]".data =
      [["[abc,5]".data, ['a', 'b', 'c'], ['5']],
        ["[1e999,5]".data, ['1', 'e', '9', '9', '9'], ['5']],
        ["[1,2]".data, ['1'], ['2']]] := by decide
  have hget : ∀ key text, sampleGraphs.get_string key = .ok text → text ≠ "" →
      sampleGraphs.get_FlowTempGraph stodDecimal key =
        flowTempLoop stodDecimal
          (regexMatches flowTempRegex (text.data.length + 1) text.data) ⟨[]⟩ := by
    intro key text ht hne
    simp only [Settings.get_FlowTempGraph, ht, hne, if_false]
  refine ⟨?_, ?_, ?_, ?_⟩
  · rw [hget "bad" "[abc,5]" rfl (by decide), hbad]
    simp [flowTempLoop, habc]
  · rw [hget "badgood" "[abc,5],[1,2]" rfl (by decide), hbadgood]
    simp [flowTempLoop, habc, h1, h2]
  · rw [hget "huge" "[1e999,5]" rfl (by decide), hhugem]
    simp [flowTempLoop, hhuge]
  · rw [hget "badhuge" "[abc,5],[1e999,5],[1,2]" rfl (by decide), hbadhuge]
    simp [flowTempLoop, habc, hhuge]


end cura
